import Mathlib

/-!
Verification of the fast bivariate kernel density estimator
`plot_fast_kde` from `tvb/simulator/plot/tools.py`.

The function is embedded shallowly:

* sample coordinates, weights, extents and covariances are exact
  rationals (the stages of the algorithm that only move, floor and sum
  numbers are computable);
* the Gaussian kernel, the bandwidth factor `n ^ (-1/6)` and the
  normalization constant live in `ℝ` (they involve `exp`, `sqrt`, `π`
  and real powers);
* the raise sites of the code become an error enumeration and the
  function returns `Except KdeErr Grid`.
-/

/-- An error kind for each way `plot_fast_kde` can fail to return a grid.
Constructors model the actual raise sites of the code (two explicit
`ValueError`s, the reductions and library calls that reject bad data),
plus the extent-validation error named by the specification, which has
no raise site in the code at all. -/
inductive KdeErr where
  /-- explicit `ValueError`: x and y arrays differ in size. -/
  | shapeMismatch
  /-- explicit `ValueError`: weights array differs in size from x and y. -/
  | weightsMismatch
  /-- `x.min()` / `x.max()` on an empty array raises `ValueError`. -/
  | emptyReduce
  /-- `coo_matrix` rejects non-finite or out-of-range bin indices
  (zero bin width makes the pixel division non-finite). -/
  | invalidIndex
  /-- with fewer than two samples `numpy.cov` divides by zero degrees of
  freedom and the NaN covariance poisons the rest of the pipeline. -/
  | nanCovariance
  /-- `numpy.linalg.inv` raises `LinAlgError` on a singular bandwidth matrix. -/
  | singularMatrix
  /-- a kernel size rounded to zero or below gives an empty kernel grid,
  rejected by the convolution. -/
  | degenerateKernel
  /-- `scipy.integrate.nquad` is handed the grid array as its integrand;
  an array is not callable, so the call raises `TypeError`. -/
  | notCallable
  /-- the specification's `DegenerateExtentError`; no statement in the
  code raises it. -/
  | degenerateExtent
  deriving DecidableEq, Repr

/-- The arguments of `plot_fast_kde`, with the default values of the
Python signature. -/
structure KdeInput where
  x : List ℚ
  y : List ℚ
  kern_nx : Option ℚ := none
  kern_ny : Option ℚ := none
  gridsize : ℕ × ℕ := (500, 500)
  extents : Option (ℚ × ℚ × ℚ × ℚ) := none
  nocorrelation : Bool := false
  weights : Option (List ℚ) := none
  norm : Bool := true
  pdf : Bool := false

/-- A two-dimensional real grid: `rows × cols`, entries indexed by
(row, column); values at out-of-range indices are irrelevant. -/
@[ext]
structure Grid where
  rows : ℕ
  cols : ℕ
  entry : ℕ → ℕ → ℝ

/-- Number of samples: `n = x.size`. -/
def nOf (I : KdeInput) : ℕ := I.x.length

/-- Materialized weights: the given array, or `numpy.ones(n)` by default. -/
def weightsOf (I : KdeInput) : List ℚ := I.weights.getD (List.replicate (nOf I) 1)

/-- Minimum of a list, as `numpy.min` over a nonempty array (the value on
the empty list is irrelevant: the code raises there). -/
def listMin : List ℚ → ℚ
  | [] => 0
  | a :: t => t.foldl min a

/-- Maximum of a list, as `numpy.max` over a nonempty array. -/
def listMax : List ℚ → ℚ
  | [] => 0
  | a :: t => t.foldl max a

/-- Extents `(xmin, xmax, ymin, ymax)`: the given tuple, or the bounding
box of the data. -/
def extentsOf (I : KdeInput) : ℚ × ℚ × ℚ × ℚ :=
  match I.extents with
  | some e => e
  | none => (listMin I.x, listMax I.x, listMin I.y, listMax I.y)

/-- Left edge `xmin` of the grid. -/
def xminOf (I : KdeInput) : ℚ := (extentsOf I).1

/-- Right edge `xmax` of the grid. -/
def xmaxOf (I : KdeInput) : ℚ := (extentsOf I).2.1

/-- Bottom edge `ymin` of the grid. -/
def yminOf (I : KdeInput) : ℚ := (extentsOf I).2.2.1

/-- Top edge `ymax` of the grid. -/
def ymaxOf (I : KdeInput) : ℚ := (extentsOf I).2.2.2

/-- Bin width `dx = (xmax - xmin) / (nx - 1)`. -/
def dxOf (I : KdeInput) : ℚ := (xmaxOf I - xminOf I) / ((I.gridsize.1 : ℚ) - 1)

/-- Bin width `dy = (ymax - ymin) / (ny - 1)`. -/
def dyOf (I : KdeInput) : ℚ := (ymaxOf I - yminOf I) / ((I.gridsize.2 : ℚ) - 1)

/-- Pixel bin index of sample `i` along x: `floor((x - xmin) / dx)`.
When `dx = 0` the IEEE division is non-finite and its floor cannot index
the sparse matrix; this is modelled as `none`. -/
def pixelX (I : KdeInput) (i : ℕ) : Option ℤ :=
  if dxOf I = 0 then none else some ⌊(I.x.getD i 0 - xminOf I) / dxOf I⌋

/-- Pixel bin index of sample `i` along y. -/
def pixelY (I : KdeInput) (i : ℕ) : Option ℤ :=
  if dyOf I = 0 then none else some ⌊(I.y.getD i 0 - yminOf I) / dyOf I⌋

/-- True when every sample maps to finite bin indices inside the
`nx × ny` histogram, the condition under which `coo_matrix` accepts the
index arrays. -/
def indicesOK (I : KdeInput) : Bool :=
  (List.range (nOf I)).all fun i =>
    match pixelX I i, pixelY I i with
    | some a, some b =>
        decide (0 ≤ a ∧ a < (I.gridsize.1 : ℤ) ∧ 0 ≤ b ∧ b < (I.gridsize.2 : ℤ))
    | _, _ => false

/-- The 2D histogram built by `coo_matrix((weights, xyi), shape=(nx, ny))`:
cell `(a, b)` accumulates the weights of the samples whose pixel index
pair is `(a, b)`. -/
noncomputable def histGrid (I : KdeInput) : Grid where
  rows := I.gridsize.1
  cols := I.gridsize.2
  entry a b := ∑ i ∈ Finset.range (nOf I),
    if pixelX I i = some (a : ℤ) ∧ pixelY I i = some (b : ℤ)
    then (((weightsOf I).getD i 0 : ℚ) : ℝ) else 0

/-- Pixel x-coordinate of sample `i` as a rational, for the covariance
computation (the guarded pipeline only uses it when the index is finite). -/
def pxQ (I : KdeInput) (i : ℕ) : ℚ := (((pixelX I i).getD 0 : ℤ) : ℚ)

/-- Pixel y-coordinate of sample `i` as a rational. -/
def pyQ (I : KdeInput) (i : ℕ) : ℚ := (((pixelY I i).getD 0 : ℤ) : ℚ)

/-- Mean of the pixel x-coordinates. -/
def meanX (I : KdeInput) : ℚ := (∑ i ∈ Finset.range (nOf I), pxQ I i) / (nOf I : ℚ)

/-- Mean of the pixel y-coordinates. -/
def meanY (I : KdeInput) : ℚ := (∑ i ∈ Finset.range (nOf I), pyQ I i) / (nOf I : ℚ)

/-- Entry (0,0) of `numpy.cov(xyi)` (sample covariance, `n - 1` degrees
of freedom). -/
def covXX (I : KdeInput) : ℚ :=
  (∑ i ∈ Finset.range (nOf I), (pxQ I i - meanX I) ^ 2) / ((nOf I : ℚ) - 1)

/-- Entry (1,1) of `numpy.cov(xyi)`. -/
def covYY (I : KdeInput) : ℚ :=
  (∑ i ∈ Finset.range (nOf I), (pyQ I i - meanY I) ^ 2) / ((nOf I : ℚ) - 1)

/-- Off-diagonal entry of `numpy.cov(xyi)`. -/
def covXY (I : KdeInput) : ℚ :=
  (∑ i ∈ Finset.range (nOf I), (pxQ I i - meanX I) * (pyQ I i - meanY I)) /
    ((nOf I : ℚ) - 1)

/-- Off-diagonal covariance actually used: zeroed under `nocorrelation`. -/
def covXYeff (I : KdeInput) : ℚ := if I.nocorrelation then 0 else covXY I

/-- Determinant of the (possibly decorrelated) pixel covariance matrix. -/
def detCov (I : KdeInput) : ℚ := covXX I * covYY I - covXYeff I ^ 2

/-- Scott bandwidth factor `n ** (-1/6)` for two dimensions. -/
noncomputable def scottsFactor (I : KdeInput) : ℝ := (nOf I : ℝ) ^ (-(1 / 6 : ℝ))

/-- Round-half-to-even on a rational, as `numpy.round` on an exact value. -/
def npRoundQ (q : ℚ) : ℤ :=
  if Int.fract q = 1 / 2 then (if Even ⌊q⌋ then ⌊q⌋ else ⌊q⌋ + 1) else round q

/-- Round-half-to-even on a real, as `numpy.round`. -/
noncomputable def npRound (r : ℝ) : ℤ :=
  if Int.fract r = 1 / 2 then (if Even ⌊r⌋ then ⌊r⌋ else ⌊r⌋ + 1) else round r

/-- Scott-rule kernel size along x: `round(scotts_factor * 2 * pi * sqrt(cov[0,0]))`. -/
noncomputable def kernScottX (I : KdeInput) : ℝ :=
  scottsFactor I * 2 * Real.pi * Real.sqrt ((covXX I : ℝ))

/-- Scott-rule kernel size along y. -/
noncomputable def kernScottY (I : KdeInput) : ℝ :=
  scottsFactor I * 2 * Real.pi * Real.sqrt ((covYY I : ℝ))

/-- Kernel sizes in bins.  The code tests `kern_nx is None or kern_ny is
None`: only when both are given are they converted by
`round(kern / d)`; if either is missing, both come from Scott's rule. -/
noncomputable def kernSize (I : KdeInput) : ℤ × ℤ :=
  match I.kern_nx, I.kern_ny with
  | some a, some b => (npRoundQ (a / dxOf I), npRoundQ (b / dyOf I))
  | some _, none => (npRound (kernScottX I), npRound (kernScottY I))
  | none, some _ => (npRound (kernScottX I), npRound (kernScottY I))
  | none, none => (npRound (kernScottX I), npRound (kernScottY I))

/-- Entry (0,0) of `inv(cov * scotts_factor**2)`. -/
noncomputable def invCovXX (I : KdeInput) : ℝ :=
  (covYY I : ℝ) / (scottsFactor I ^ 2 * (detCov I : ℝ))

/-- Off-diagonal entry of `inv(cov * scotts_factor**2)`. -/
noncomputable def invCovXY (I : KdeInput) : ℝ :=
  -(covXYeff I : ℝ) / (scottsFactor I ^ 2 * (detCov I : ℝ))

/-- Entry (1,1) of `inv(cov * scotts_factor**2)`. -/
noncomputable def invCovYY (I : KdeInput) : ℝ :=
  (covXX I : ℝ) / (scottsFactor I ^ 2 * (detCov I : ℝ))

/-- Quadratic form `offset . inv_cov . offset` evaluated by the kernel
construction. -/
noncomputable def qForm (I : KdeInput) (a b : ℝ) : ℝ :=
  invCovXX I * a ^ 2 + 2 * invCovXY I * a * b + invCovYY I * b ^ 2

/-- The discretized Gaussian kernel, a `kern_ny × kern_nx` grid whose
cell `(v, u)` holds `exp(-q(xx_u, yy_v) / 2)` with the offsets centered
at zero. -/
noncomputable def kernelGrid (I : KdeInput) : Grid where
  rows := (kernSize I).2.toNat
  cols := (kernSize I).1.toNat
  entry v u :=
    Real.exp (-(qForm I ((u : ℝ) - ((kernSize I).1 : ℝ) / 2)
      ((v : ℝ) - ((kernSize I).2 : ℝ) / 2)) / 2)

/-- Zero-extended entry access at integer indices, for the zero-padded
boundary of the convolution. -/
def entryZ (g : Grid) (i j : ℤ) : ℝ :=
  if 0 ≤ i ∧ i < (g.rows : ℤ) ∧ 0 ≤ j ∧ j < (g.cols : ℤ)
  then g.entry i.toNat j.toNat else 0

/-- `scipy.signal.convolve2d(A, K, mode='same', boundary='fill')`:
output has the shape of `A` and is the central part of the full
zero-padded convolution. -/
noncomputable def convSame (A K : Grid) : Grid where
  rows := A.rows
  cols := A.cols
  entry i j := ∑ u ∈ Finset.range K.rows, ∑ v ∈ Finset.range K.cols,
    K.entry u v *
      entryZ A ((i : ℤ) + ((K.rows - 1) / 2 : ℕ) - u)
        ((j : ℤ) + ((K.cols - 1) / 2 : ℕ) - v)

/-- Transposition `grid.T`. -/
noncomputable def transposeGrid (g : Grid) : Grid where
  rows := g.cols
  cols := g.rows
  entry i j := g.entry j i

/-- Entrywise scaling of a grid. -/
noncomputable def smulGrid (c : ℝ) (g : Grid) : Grid where
  rows := g.rows
  cols := g.cols
  entry i j := c * g.entry i j

/-- Sum of all in-range entries of a grid. -/
noncomputable def sumGrid (g : Grid) : ℝ :=
  ∑ i ∈ Finset.range g.rows, ∑ j ∈ Finset.range g.cols, g.entry i j

/-- Kernel-only normalization constant
`sqrt(det(2 * pi * cov * scotts_factor**2))`. -/
noncomputable def normFactor0 (I : KdeInput) : ℝ :=
  Real.sqrt ((2 * Real.pi * scottsFactor I ^ 2) ^ 2 * (detCov I : ℝ))

/-- Normalization constant actually divided out: multiplied by
`n * dx * dy` when `norm` is requested. -/
noncomputable def normFactor (I : KdeInput) : ℝ :=
  if I.norm then normFactor0 I * (nOf I : ℝ) * (dxOf I : ℝ) * (dyOf I : ℝ)
  else normFactor0 I

/-- The grid value of a successful run: convolve the histogram with the
kernel, transpose, divide by the normalization constant. -/
noncomputable def kdeGrid (I : KdeInput) : Grid :=
  smulGrid (normFactor I)⁻¹ (transposeGrid (convSame (histGrid I) (kernelGrid I)))

/-- True when the weights argument is present with the wrong length. -/
def weightsBad (I : KdeInput) : Bool :=
  match I.weights with
  | some w => w.length != nOf I
  | none => false

/-- The failure checks of the pipeline in the order the raise sites are
reached, abstracted over the kernel sizes. -/
def kdeCheckAux (I : KdeInput) (ks : ℤ × ℤ) : Option KdeErr :=
  if I.x.length ≠ I.y.length then some .shapeMismatch
  else if weightsBad I then some .weightsMismatch
  else if I.extents = none ∧ nOf I = 0 then some .emptyReduce
  else if indicesOK I = false then some .invalidIndex
  else if nOf I < 2 then some .nanCovariance
  else if detCov I = 0 then some .singularMatrix
  else if ks.1 ≤ 0 ∨ ks.2 ≤ 0 then some .degenerateKernel
  else if I.pdf then some .notCallable
  else none

/-- The failure checks of `plot_fast_kde`. -/
noncomputable def kdeCheck (I : KdeInput) : Option KdeErr :=
  kdeCheckAux I (kernSize I)

/-- The fast kernel density estimator: either an error at one of the
raise sites, or the normalized, transposed density grid. -/
noncomputable def plot_fast_kde (I : KdeInput) : Except KdeErr Grid :=
  match kdeCheck I with
  | some e => .error e
  | none => .ok (kdeGrid I)

/-! ### Helper lemmas shared across the development -/

/-- With both kernel extents given explicitly, the kernel sizes are the
rounded data-unit extents divided by the bin widths. -/
theorem kernSize_of_explicit (I : KdeInput) (a b : ℚ)
    (ha : I.kern_nx = some a) (hb : I.kern_ny = some b) :
    kernSize I = (npRoundQ (a / dxOf I), npRoundQ (b / dyOf I)) := by
  unfold kernSize
  rw [ha, hb]

/-- With either kernel extent missing, both kernel sizes come from
Scott's rule. -/
theorem kernSize_of_missing (I : KdeInput)
    (h : I.kern_nx = none ∨ I.kern_ny = none) :
    kernSize I = (npRound (kernScottX I), npRound (kernScottY I)) := by
  unfold kernSize
  rcases h with h | h
  · rw [h]; cases I.kern_ny <;> rfl
  · rw [h]; cases I.kern_nx <;> rfl

/-- The check pipeline under explicit kernel extents, a fully computable
expression. -/
theorem kdeCheck_of_explicit (I : KdeInput) (a b : ℚ)
    (ha : I.kern_nx = some a) (hb : I.kern_ny = some b) :
    kdeCheck I = kdeCheckAux I (npRoundQ (a / dxOf I), npRoundQ (b / dyOf I)) := by
  unfold kdeCheck
  rw [kernSize_of_explicit I a b ha hb]

/-- The run succeeds exactly when the check pipeline reports no error. -/
theorem plot_fast_kde_ok_iff (I : KdeInput) :
    plot_fast_kde I = .ok (kdeGrid I) ↔ kdeCheck I = none := by
  unfold plot_fast_kde
  cases h : kdeCheck I <;> simp

/-- A successful run returns exactly the pipeline grid. -/
theorem plot_fast_kde_ok_elim (I : KdeInput) (g : Grid)
    (h : plot_fast_kde I = .ok g) : g = kdeGrid I ∧ kdeCheck I = none := by
  unfold plot_fast_kde at h
  cases hc : kdeCheck I <;> rw [hc] at h
  · exact ⟨(Except.ok.injEq _ _).mp h.symm, rfl⟩
  · exact absurd h (by simp)

/-- The check pipeline only reports the singular-matrix error when the
determinant of the decorrelated covariance vanishes (with at least two
samples). -/
theorem kdeCheckAux_singular_elim (I : KdeInput) (ks : ℤ × ℤ)
    (h : kdeCheckAux I ks = some .singularMatrix) :
    detCov I = 0 ∧ 2 ≤ nOf I ∧ indicesOK I = true := by
  unfold kdeCheckAux at h
  split_ifs at h with h1 h2 h3 h4 h5 h6 h7 h8 <;> simp_all

/-- When the check pipeline passes, every sample index was accepted and
there are at least two samples. -/
theorem kdeCheckAux_none_elim (I : KdeInput) (ks : ℤ × ℤ)
    (h : kdeCheckAux I ks = none) :
    indicesOK I = true ∧ 2 ≤ nOf I ∧ detCov I ≠ 0 ∧ I.pdf = false := by
  unfold kdeCheckAux at h
  split_ifs at h with h1 h2 h3 h4 h5 h6 h7 h8 <;> simp_all

/-- A concrete run used to instantiate hypothesis-bearing theorems:
three non-collinear points on a 3 by 3 grid with explicit unit kernel
extents. -/
def Iex : KdeInput :=
  { x := [0, 1, 2], y := [0, 2, 1], kern_nx := some 1, kern_ny := some 1,
    gridsize := (3, 3), extents := none, nocorrelation := false,
    weights := none, norm := true, pdf := false }

/-- The x data of the example input. -/
theorem Iex_x : Iex.x = [0, 1, 2] := rfl

/-- The y data of the example input. -/
theorem Iex_y : Iex.y = [0, 2, 1] := rfl

/-- The grid size of the example input. -/
theorem Iex_gridsize : Iex.gridsize = (3, 3) := rfl

/-- Sample count of the example input. -/
theorem nOf_Iex : nOf Iex = 3 := rfl

/-- Left edge of the example input. -/
theorem xmin_Iex : xminOf Iex = 0 := by
  norm_num [xminOf, extentsOf, listMin, Iex]

/-- Bottom edge of the example input. -/
theorem ymin_Iex : yminOf Iex = 0 := by
  norm_num [yminOf, extentsOf, listMin, Iex]

/-- Bin width along x at the example input. -/
theorem dx_Iex : dxOf Iex = 1 := by
  norm_num [dxOf, xmaxOf, xminOf, extentsOf, listMin, listMax, Iex]

/-- Bin width along y at the example input. -/
theorem dy_Iex : dyOf Iex = 1 := by
  norm_num [dyOf, ymaxOf, yminOf, extentsOf, listMin, listMax, Iex]

/-- Pixel x-indices of the example input. -/
theorem pixelX_Iex :
    pixelX Iex 0 = some 0 ∧ pixelX Iex 1 = some 1 ∧ pixelX Iex 2 = some 2 := by
  norm_num [pixelX, dx_Iex, xmin_Iex, Iex_x]

/-- Pixel y-indices of the example input. -/
theorem pixelY_Iex :
    pixelY Iex 0 = some 0 ∧ pixelY Iex 1 = some 2 ∧ pixelY Iex 2 = some 1 := by
  norm_num [pixelY, dy_Iex, ymin_Iex, Iex_y]

/-- All bin indices of the example input are accepted. -/
theorem indicesOK_Iex : indicesOK Iex = true := by
  rw [indicesOK, List.all_eq_true]
  intro i hi
  rw [List.mem_range, nOf_Iex] at hi
  interval_cases i <;>
    simp [pixelX_Iex.1, pixelX_Iex.2.1, pixelX_Iex.2.2,
      pixelY_Iex.1, pixelY_Iex.2.1, pixelY_Iex.2.2, Iex_gridsize]

/-- The example input keeps its correlation term. -/
theorem Iex_noc : Iex.nocorrelation = false := rfl

/-- Covariance determinant of the example input. -/
theorem detCov_Iex : detCov Iex = 3 / 4 := by
  norm_num [detCov, covXX, covYY, covXY, covXYeff, meanX, meanY, nOf_Iex,
    Iex_noc, pxQ, pyQ, pixelX_Iex.1, pixelX_Iex.2.1, pixelX_Iex.2.2,
    pixelY_Iex.1, pixelY_Iex.2.1, pixelY_Iex.2.2,
    Finset.sum_range_succ]

/-- Round-half-even fixes the integer one. -/
theorem npRoundQ_one : npRoundQ 1 = 1 := by
  norm_num [npRoundQ, Int.fract, round_eq]

/-- The weights of the example input have a valid shape. -/
theorem weightsBad_Iex : weightsBad Iex = false := rfl

/-- The check pipeline accepts the concrete example input. -/
theorem kdeCheck_Iex : kdeCheck Iex = none := by
  rw [kdeCheck_of_explicit Iex 1 1 rfl rfl]
  rw [kdeCheckAux, dx_Iex, dy_Iex]
  norm_num [weightsBad_Iex, nOf_Iex, indicesOK_Iex, detCov_Iex, npRoundQ_one,
    Iex_x, Iex_y]
  norm_num [Iex]

/-- The concrete example run succeeds. -/
theorem plot_fast_kde_Iex : plot_fast_kde Iex = .ok (kdeGrid Iex) :=
  (plot_fast_kde_ok_iff Iex).mpr kdeCheck_Iex

/-! ### C1: shape of the returned grid -/

/-- C1: for every input on which `plot_fast_kde` returns a grid, that
grid has `gridsize.2` rows and `gridsize.1` columns: the convolved
`(nx, ny)` histogram is returned transposed, so axis 0 is the y-extent
and axis 1 the x-extent. -/
theorem plot_fast_kde_shape (I : KdeInput) (g : Grid)
    (h : plot_fast_kde I = .ok g) :
    g.rows = I.gridsize.2 ∧ g.cols = I.gridsize.1 := by
  obtain ⟨rfl, -⟩ := plot_fast_kde_ok_elim I g h
  exact ⟨rfl, rfl⟩

/-- Witness for C1 at the concrete example input. -/
theorem plot_fast_kde_shape_witness :
    (kdeGrid Iex).rows = Iex.gridsize.2 ∧ (kdeGrid Iex).cols = Iex.gridsize.1 :=
  plot_fast_kde_shape Iex (kdeGrid Iex) plot_fast_kde_Iex

/-! ### C8: the exact-pdf mode never returns -/

/-- C8 (code bug): with `pdf=True` the code hands the grid array itself
to `scipy.integrate.nquad` as the integrand; an array is not callable,
so the call raises instead of dividing by the numeric integral, and no
grid is ever returned. -/
theorem pdf_never_returns (I : KdeInput) (g : Grid) (hpdf : I.pdf = true) :
    plot_fast_kde I ≠ .ok g := by
  intro h
  obtain ⟨-, hc⟩ := plot_fast_kde_ok_elim I g h
  have := (kdeCheckAux_none_elim I (kernSize I) hc).2.2.2
  rw [hpdf] at this
  exact absurd this (by decide)

/-- Witness for C8: the example input with `pdf := true` cannot return. -/
theorem pdf_never_returns_witness :
    plot_fast_kde { Iex with pdf := true } ≠ .ok (kdeGrid { Iex with pdf := true }) :=
  pdf_never_returns { Iex with pdf := true } (kdeGrid { Iex with pdf := true }) rfl

/-! ### C9: homogeneity in the weights -/

/-- Mapping a scaling over a list scales its default-zero lookups. -/
theorem getD_map_mul (w : List ℚ) (c : ℚ) (i : ℕ) :
    (w.map (fun t => c * t)).getD i 0 = c * w.getD i 0 := by
  induction w generalizing i with
  | nil => simp
  | cons a t ih =>
    cases i with
    | zero => simp
    | succ j => simpa using ih j

/-- Scaling the entries of a grid scales its zero-extended entries. -/
theorem entryZ_smul (c : ℝ) (g : Grid) (i j : ℤ) :
    entryZ (smulGrid c g) i j = c * entryZ g i j := by
  unfold entryZ smulGrid
  split_ifs <;> simp

/-- The histogram is linear in the weights. -/
theorem histGrid_scale (I : KdeInput) (w : List ℚ) (c : ℚ)
    (hw : I.weights = some w) :
    histGrid { I with weights := some (w.map (fun t => c * t)) } =
      smulGrid (c : ℝ) (histGrid I) := by
  ext a b
  · rfl
  · rfl
  · show (∑ i ∈ Finset.range (nOf I), _ : ℝ) = (c : ℝ) * ∑ i ∈ Finset.range (nOf I), _
    rw [Finset.mul_sum]
    refine Finset.sum_congr rfl fun i _ => ?_
    show (if pixelX I i = some (a : ℤ) ∧ pixelY I i = some (b : ℤ)
      then (((w.map (fun t => c * t)).getD i 0 : ℚ) : ℝ) else 0) = _
    rw [weightsOf, hw, Option.getD_some, getD_map_mul]
    split_ifs <;> push_cast <;> ring

/-- Convolution is linear in its first argument. -/
theorem convSame_smul (c : ℝ) (A K : Grid) :
    convSame (smulGrid c A) K = smulGrid c (convSame A K) := by
  ext i j
  · rfl
  · rfl
  · show ∑ u ∈ Finset.range K.rows, ∑ v ∈ Finset.range K.cols,
        K.entry u v * entryZ (smulGrid c A)
          ((i : ℤ) + ((K.rows - 1) / 2 : ℕ) - u) ((j : ℤ) + ((K.cols - 1) / 2 : ℕ) - v) =
      c * ∑ u ∈ Finset.range K.rows, ∑ v ∈ Finset.range K.cols,
        K.entry u v * entryZ A
          ((i : ℤ) + ((K.rows - 1) / 2 : ℕ) - u) ((j : ℤ) + ((K.cols - 1) / 2 : ℕ) - v)
    rw [Finset.mul_sum]
    refine Finset.sum_congr rfl fun u _ => ?_
    rw [Finset.mul_sum]
    refine Finset.sum_congr rfl fun v _ => ?_
    rw [entryZ_smul]
    ring

/-- The shape-check on the weights is unchanged by scaling them. -/
theorem weightsBad_scale (I : KdeInput) (w : List ℚ) (c : ℚ)
    (hw : I.weights = some w) :
    weightsBad { I with weights := some (w.map (fun t => c * t)) } =
      weightsBad I := by
  simp [weightsBad, hw, nOf]

/-- The whole check pipeline is unchanged by scaling the weights. -/
theorem kdeCheck_scale (I : KdeInput) (w : List ℚ) (c : ℚ)
    (hw : I.weights = some w) :
    kdeCheck { I with weights := some (w.map (fun t => c * t)) } = kdeCheck I := by
  unfold kdeCheck kdeCheckAux
  rw [weightsBad_scale I w c hw]
  rfl

/-- C9 (with `norm=False`, `pdf=False`): the output is homogeneous of
degree one in the weights — scaling every weight by `c` scales every
returned cell by `c`, while the covariance, the kernel size and the
normalization factor are unchanged. -/
theorem plot_fast_kde_weight_scaling (I : KdeInput) (w : List ℚ) (c : ℚ)
    (hw : I.weights = some w) (_hnorm : I.norm = false) (_hpdf : I.pdf = false) :
    plot_fast_kde { I with weights := some (w.map (fun t => c * t)) } =
      Except.map (smulGrid (c : ℝ)) (plot_fast_kde I) ∧
    detCov { I with weights := some (w.map (fun t => c * t)) } = detCov I ∧
    kernSize { I with weights := some (w.map (fun t => c * t)) } = kernSize I ∧
    normFactor { I with weights := some (w.map (fun t => c * t)) } = normFactor I := by
  refine ⟨?_, rfl, rfl, rfl⟩
  unfold plot_fast_kde
  rw [kdeCheck_scale I w c hw]
  cases kdeCheck I with
  | some e => rfl
  | none =>
    show Except.ok (kdeGrid _) = Except.ok (smulGrid (c : ℝ) (kdeGrid I))
    have hk : kernelGrid { I with weights := some (w.map (fun t => c * t)) } =
        kernelGrid I := rfl
    have hn : normFactor { I with weights := some (w.map (fun t => c * t)) } =
        normFactor I := rfl
    unfold kdeGrid
    rw [hk, hn, histGrid_scale I w c hw, convSame_smul]
    congr 1
    ext i j
    · rfl
    · rfl
    · show (normFactor I)⁻¹ *
          ((c : ℝ) * (convSame (histGrid I) (kernelGrid I)).entry j i) =
        (c : ℝ) * ((normFactor I)⁻¹ * (convSame (histGrid I) (kernelGrid I)).entry j i)
      ring

/-- The example input with explicit unit weights and `norm := false`, for
the weight-scaling witness. -/
def IexW : KdeInput := { Iex with weights := some [1, 1, 1], norm := false }

/-- Witness for C9 at the example input with unit weights and `c = 2`. -/
theorem plot_fast_kde_weight_scaling_witness :
    plot_fast_kde { IexW with weights := some (([1, 1, 1] : List ℚ).map (fun t => 2 * t)) } =
      Except.map (smulGrid ((2 : ℚ) : ℝ)) (plot_fast_kde IexW) ∧
    detCov { IexW with weights := some (([1, 1, 1] : List ℚ).map (fun t => 2 * t)) } =
      detCov IexW ∧
    kernSize { IexW with weights := some (([1, 1, 1] : List ℚ).map (fun t => 2 * t)) } =
      kernSize IexW ∧
    normFactor { IexW with weights := some (([1, 1, 1] : List ℚ).map (fun t => 2 * t)) } =
      normFactor IexW :=
  plot_fast_kde_weight_scaling IexW [1, 1, 1] 2 rfl rfl rfl

/-! ### C7: explicit kernel extents -/

/-- Round-half-even is bounded by any integer bound on its argument. -/
theorem npRound_le_of_le {r : ℝ} {B : ℤ} (h : r ≤ (B : ℝ)) : npRound r ≤ B := by
  unfold npRound
  split_ifs with hf he
  · have h2 := Int.floor_le_floor h
    rwa [Int.floor_intCast] at h2
  · unfold Int.fract at hf
    have h3 : (⌊r⌋ : ℝ) < (B : ℝ) := by linarith
    have h4 : ⌊r⌋ < B := by exact_mod_cast h3
    omega
  · rw [round_eq]
    have h2 : r + 1 / 2 ≤ (B : ℝ) + 1 / 2 := by linarith
    have h3 := Int.floor_le_floor h2
    rwa [Int.floor_int_add, show ⌊(1 / 2 : ℝ)⌋ = 0 by norm_num, add_zero] at h3

/-- An input with an explicit x kernel extent but no y kernel extent. -/
def Ikx : KdeInput :=
  { x := [0, 1], y := [0, 1], kern_nx := some 1000, kern_ny := none,
    gridsize := (2, 2) }

/-- Sample count of `Ikx`. -/
theorem nOf_Ikx : nOf Ikx = 2 := rfl

/-- Bin width along x of `Ikx`. -/
theorem dx_Ikx : dxOf Ikx = 1 := by
  norm_num [dxOf, xmaxOf, xminOf, extentsOf, listMin, listMax, Ikx]

/-- Pixel x-indices of `Ikx`. -/
theorem pixelX_Ikx : pixelX Ikx 0 = some 0 ∧ pixelX Ikx 1 = some 1 := by
  have hx : xminOf Ikx = 0 := by norm_num [xminOf, extentsOf, listMin, Ikx]
  have hl : Ikx.x = [0, 1] := rfl
  norm_num [pixelX, dx_Ikx, hx, hl]

/-- Pixel x-variance of `Ikx`. -/
theorem covXX_Ikx : covXX Ikx = 1 / 2 := by
  norm_num [covXX, meanX, nOf_Ikx, pxQ, pixelX_Ikx.1, pixelX_Ikx.2,
    Finset.sum_range_succ]

/-- The Scott-rule x kernel size of `Ikx` is small. -/
theorem kernScottX_Ikx_small : npRound (kernScottX Ikx) ≤ 7 := by
  apply npRound_le_of_le
  rw [kernScottX, covXX_Ikx]
  have hs0 : 0 ≤ scottsFactor Ikx := Real.rpow_nonneg (by norm_num) _
  have hs1 : scottsFactor Ikx ≤ 1 := by
    rw [scottsFactor, nOf_Ikx]
    exact Real.rpow_le_one_of_one_le_of_nonpos (by norm_num) (by norm_num)
  have hsq0 : (0 : ℝ) ≤ Real.sqrt (((1 / 2 : ℚ) : ℝ)) := Real.sqrt_nonneg _
  have hsq1 : Real.sqrt (((1 / 2 : ℚ) : ℝ)) ≤ 1 := Real.sqrt_le_one.mpr (by norm_num)
  have h1 : scottsFactor Ikx * 2 ≤ 2 := by nlinarith
  have h2 : scottsFactor Ikx * 2 * Real.pi ≤ 2 * Real.pi :=
    mul_le_mul_of_nonneg_right h1 Real.pi_pos.le
  have h3 : (2 : ℝ) * Real.pi ≤ 6.3 := by nlinarith [Real.pi_lt_d2]
  have h5 : scottsFactor Ikx * 2 * Real.pi * Real.sqrt (((1 / 2 : ℚ) : ℝ)) ≤ 6.3 * 1 :=
    mul_le_mul (h2.trans h3) hsq1 hsq0 (by norm_num)
  push_cast
  linarith

/-- Round-half-even fixes the integer one thousand. -/
theorem npRoundQ_thousand : npRoundQ 1000 = 1000 := by
  norm_num [npRoundQ, Int.fract, round_eq]

/-- C7 counterexample: with `kern_nx = 1000` given but `kern_ny` omitted,
the x kernel size actually used is NOT `round(kern_nx / dx)`: the code
falls back to Scott's rule for both axes whenever either extent is
missing, so the explicit value 1000 is ignored. -/
theorem kern_extent_counterexample :
    Ikx.kern_nx = some 1000 ∧ Ikx.kern_ny = none ∧
    npRoundQ (1000 / dxOf Ikx) = 1000 ∧
    (kernSize Ikx).1 ≠ npRoundQ (1000 / dxOf Ikx) := by
  have hq : npRoundQ (1000 / dxOf Ikx) = 1000 := by
    rw [dx_Ikx, div_one, npRoundQ_thousand]
  refine ⟨rfl, rfl, hq, ?_⟩
  rw [hq, kernSize_of_missing Ikx (Or.inr rfl)]
  have h := kernScottX_Ikx_small
  intro hcontra
  simp only at hcontra
  omega

/-- C7 amended: explicit kernel extents are honoured only when both axes
are given; then each is converted to pixel units as
`round(extent / bin width)` and those are the kernel grid dimensions. -/
theorem kernSize_explicit_both (I : KdeInput) (a b : ℚ)
    (ha : I.kern_nx = some a) (hb : I.kern_ny = some b) :
    kernSize I = (npRoundQ (a / dxOf I), npRoundQ (b / dyOf I)) ∧
    (kernelGrid I).cols = (npRoundQ (a / dxOf I)).toNat ∧
    (kernelGrid I).rows = (npRoundQ (b / dyOf I)).toNat := by
  have h := kernSize_of_explicit I a b ha hb
  refine ⟨h, ?_, ?_⟩
  · show (kernSize I).1.toNat = _
    rw [h]
  · show (kernSize I).2.toNat = _
    rw [h]

/-- Witness for the amended C7 at the example input. -/
theorem kernSize_explicit_both_witness :
    kernSize Iex = (npRoundQ (1 / dxOf Iex), npRoundQ (1 / dyOf Iex)) ∧
    (kernelGrid Iex).cols = (npRoundQ (1 / dxOf Iex)).toNat ∧
    (kernelGrid Iex).rows = (npRoundQ (1 / dyOf Iex)).toNat :=
  kernSize_explicit_both Iex 1 1 rfl rfl

/-! ### C4: zero-width extents -/

/-- An input with an explicit zero-width x extent. -/
def Izero : KdeInput :=
  { x := [1, 2], y := [3, 4], extents := some (0, 0, 0, 10), gridsize := (3, 3) }

/-- Sample count of `Izero`. -/
theorem nOf_Izero : nOf Izero = 2 := rfl

/-- The degenerate extent gives a zero bin width. -/
theorem dx_Izero : dxOf Izero = 0 := by
  norm_num [dxOf, xmaxOf, xminOf, extentsOf, Izero]

/-- With a zero bin width the pixel index is non-finite. -/
theorem pixelX_Izero : pixelX Izero 0 = none := by
  simp [pixelX, dx_Izero]

/-- The histogram indices of `Izero` are rejected. -/
theorem indicesOK_Izero : indicesOK Izero = false := by
  rw [indicesOK, nOf_Izero]
  simp [List.range_succ, pixelX_Izero]

/-- The check pipeline stops at the histogram stage on `Izero`. -/
theorem kdeCheck_Izero : kdeCheck Izero = some .invalidIndex := by
  unfold kdeCheck kdeCheckAux
  rw [indicesOK_Izero]
  norm_num [weightsBad, Izero]
  intro hcontra
  exact absurd hcontra (by simp)

/-- C4 counterexample: the zero-width domain `(0,0,0,10)` does not raise
any extent-validation error (none exists in the code); instead the
division by the zero bin width produces non-finite pixel indices and the
histogram construction rejects them. -/
theorem zero_extent_counterexample :
    plot_fast_kde Izero = .error .invalidIndex ∧
    plot_fast_kde Izero ≠ .error .degenerateExtent := by
  have h : plot_fast_kde Izero = .error .invalidIndex := by
    unfold plot_fast_kde
    rw [kdeCheck_Izero]
  exact ⟨h, by rw [h]; simp⟩

/-! ### List bounds, variance positivity, pixel ranges -/

/-- A min-fold is bounded by its initial value. -/
theorem foldl_min_le (t : List ℚ) (a : ℚ) : t.foldl min a ≤ a := by
  induction t generalizing a with
  | nil => exact le_refl a
  | cons b s ih => exact (ih (min a b)).trans (min_le_left a b)

/-- A min-fold is bounded by every member. -/
theorem foldl_min_le_mem (t : List ℚ) (a b : ℚ) (hb : b ∈ t) : t.foldl min a ≤ b := by
  induction t generalizing a with
  | nil => cases hb
  | cons c s ih =>
    rcases List.mem_cons.mp hb with rfl | hb'
    · exact (foldl_min_le s (min a b)).trans (min_le_right a b)
    · exact ih (min a c) hb'

/-- A min-fold returns its initial value or a member. -/
theorem foldl_min_mem (t : List ℚ) (a : ℚ) :
    t.foldl min a = a ∨ t.foldl min a ∈ t := by
  induction t generalizing a with
  | nil => exact Or.inl rfl
  | cons b s ih =>
    show s.foldl min (min a b) = a ∨ s.foldl min (min a b) ∈ b :: s
    rcases ih (min a b) with h | h
    · rcases min_choice a b with hm | hm
      · exact Or.inl (h.trans hm)
      · exact Or.inr (by rw [h, hm]; exact List.mem_cons_self b s)
    · exact Or.inr (List.mem_cons_of_mem b h)

/-- A max-fold dominates its initial value. -/
theorem le_foldl_max (t : List ℚ) (a : ℚ) : a ≤ t.foldl max a := by
  induction t generalizing a with
  | nil => exact le_refl a
  | cons b s ih => exact (le_max_left a b).trans (ih (max a b))

/-- A max-fold dominates every member. -/
theorem mem_le_foldl_max (t : List ℚ) (a b : ℚ) (hb : b ∈ t) : b ≤ t.foldl max a := by
  induction t generalizing a with
  | nil => cases hb
  | cons c s ih =>
    rcases List.mem_cons.mp hb with rfl | hb'
    · exact (le_max_right a b).trans (le_foldl_max s (max a b))
    · exact ih (max a c) hb'

/-- A max-fold returns its initial value or a member. -/
theorem foldl_max_mem (t : List ℚ) (a : ℚ) :
    t.foldl max a = a ∨ t.foldl max a ∈ t := by
  induction t generalizing a with
  | nil => exact Or.inl rfl
  | cons b s ih =>
    show s.foldl max (max a b) = a ∨ s.foldl max (max a b) ∈ b :: s
    rcases ih (max a b) with h | h
    · rcases max_choice a b with hm | hm
      · exact Or.inl (h.trans hm)
      · exact Or.inr (by rw [h, hm]; exact List.mem_cons_self b s)
    · exact Or.inr (List.mem_cons_of_mem b h)

/-- The list minimum bounds every member. -/
theorem listMin_le (l : List ℚ) (b : ℚ) (hb : b ∈ l) : listMin l ≤ b := by
  cases l with
  | nil => cases hb
  | cons a t =>
    rcases List.mem_cons.mp hb with rfl | hb'
    · exact foldl_min_le t b
    · exact foldl_min_le_mem t a b hb'

/-- The list minimum of a nonempty list is a member. -/
theorem listMin_mem (l : List ℚ) (hl : l ≠ []) : listMin l ∈ l := by
  cases l with
  | nil => exact absurd rfl hl
  | cons a t =>
    show t.foldl min a ∈ a :: t
    rcases foldl_min_mem t a with h | h
    · rw [h]; exact List.mem_cons_self a t
    · exact List.mem_cons_of_mem a h

/-- The list maximum dominates every member. -/
theorem le_listMax (l : List ℚ) (b : ℚ) (hb : b ∈ l) : b ≤ listMax l := by
  cases l with
  | nil => cases hb
  | cons a t =>
    rcases List.mem_cons.mp hb with rfl | hb'
    · exact le_foldl_max t b
    · exact mem_le_foldl_max t a b hb'

/-- The list maximum of a nonempty list is a member. -/
theorem listMax_mem (l : List ℚ) (hl : l ≠ []) : listMax l ∈ l := by
  cases l with
  | nil => exact absurd rfl hl
  | cons a t =>
    show t.foldl max a ∈ a :: t
    rcases foldl_max_mem t a with h | h
    · rw [h]; exact List.mem_cons_self a t
    · exact List.mem_cons_of_mem a h

/-- A list with two distinct members has at least two elements. -/
theorem two_le_length_of_ne (l : List ℚ) (a b : ℚ)
    (ha : a ∈ l) (hb : b ∈ l) (hab : a ≠ b) : 2 ≤ l.length := by
  cases l with
  | nil => cases ha
  | cons c t =>
    cases t with
    | nil =>
      rw [List.mem_singleton] at ha hb
      exact absurd (ha.trans hb.symm) hab
    | cons d s => simp [List.length_cons]

/-- When the check pipeline passes, the x and y arrays have equal length. -/
theorem kdeCheckAux_none_shape (I : KdeInput) (ks : ℤ × ℤ)
    (h : kdeCheckAux I ks = none) : I.x.length = I.y.length := by
  unfold kdeCheckAux at h
  split_ifs at h with h1 h2 h3 h4 h5 h6 h7 h8 <;> simp_all

/-- C4 amended: a zero-width domain — explicit degenerate extents, or
extents derived from data that is constant along an axis — never yields
a returned result: the zero bin width makes every pixel index
non-finite, so the histogram stage or an earlier check fails, and no
grid comes back. -/
theorem zero_extent_no_result (I : KdeInput) (g : Grid)
    (hdeg : (∃ xm xM ym yM, I.extents = some (xm, xM, ym, yM) ∧ (xm = xM ∨ ym = yM)) ∨
      (I.extents = none ∧ ((∃ p, ∀ a ∈ I.x, a = p) ∨ (∃ q, ∀ c ∈ I.y, c = q)))) :
    plot_fast_kde I ≠ .ok g := by
  intro h
  obtain ⟨-, hc⟩ := plot_fast_kde_ok_elim I g h
  obtain ⟨hidx, hn, -, -⟩ := kdeCheckAux_none_elim I _ hc
  have hlen := kdeCheckAux_none_shape I _ hc
  have h0 : (0 : ℕ) < nOf I := by omega
  have hzero : dxOf I = 0 ∨ dyOf I = 0 := by
    rcases hdeg with ⟨xm, xM, ym, yM, hext, hd | hd⟩ | ⟨hext, ⟨p, hp⟩ | ⟨q, hq⟩⟩
    · exact Or.inl (by simp [dxOf, xmaxOf, xminOf, extentsOf, hext, hd])
    · exact Or.inr (by simp [dyOf, ymaxOf, yminOf, extentsOf, hext, hd])
    · have hne : I.x ≠ [] := by
        intro hE
        have hz : nOf I = 0 := by rw [nOf, hE]; rfl
        omega
      have hmin : listMin I.x = p := hp _ (listMin_mem I.x hne)
      have hmax : listMax I.x = p := hp _ (listMax_mem I.x hne)
      exact Or.inl (by simp [dxOf, xmaxOf, xminOf, extentsOf, hext, hmin, hmax])
    · have hne : I.y ≠ [] := by
        intro hE
        have hy0 : I.y.length = 0 := by rw [hE]; rfl
        have hz : nOf I = 0 := by rw [nOf, hlen, hy0]
        omega
      have hmin : listMin I.y = q := hq _ (listMin_mem I.y hne)
      have hmax : listMax I.y = q := hq _ (listMax_mem I.y hne)
      exact Or.inr (by simp [dyOf, ymaxOf, yminOf, extentsOf, hext, hmin, hmax])
  rw [indicesOK, List.all_eq_true] at hidx
  have hall := hidx 0 (List.mem_range.mpr h0)
  rcases hzero with hd | hd
  · rw [pixelX, if_pos hd] at hall
    simp at hall
  · rw [pixelY, if_pos hd] at hall
    cases hpx : pixelX I 0 <;> rw [hpx] at hall <;> simp at hall

/-- Constant x data with extents derived from the data: the derived
domain has zero width along x. -/
def Ider : KdeInput := { x := [5, 5], y := [1, 2] }

/-- Witness for the amended C4 at the derived-extents zero-width input. -/
theorem zero_extent_no_result_witness :
    plot_fast_kde Ider ≠ .ok (kdeGrid Ider) :=
  zero_extent_no_result Ider (kdeGrid Ider)
    (Or.inr ⟨rfl, Or.inl ⟨5, by intro a ha; simp [Ider] at ha; exact ha⟩⟩)

/-- A sum of squared deviations with two differing values is positive. -/
theorem sum_sq_dev_pos (n : ℕ) (v : ℕ → ℚ) (μ : ℚ) (i j : ℕ)
    (hi : i < n) (hj : j < n) (hv : v i ≠ v j) :
    0 < ∑ k ∈ Finset.range n, (v k - μ) ^ 2 := by
  have hnn : ∀ k ∈ Finset.range n, 0 ≤ (v k - μ) ^ 2 := fun k _ => sq_nonneg _
  by_contra hcon
  push_neg at hcon
  have hz : ∑ k ∈ Finset.range n, (v k - μ) ^ 2 = 0 :=
    le_antisymm hcon (Finset.sum_nonneg hnn)
  have hall := (Finset.sum_eq_zero_iff_of_nonneg hnn).mp hz
  have h1 : v i = μ := by
    have := hall i (Finset.mem_range.mpr hi)
    nlinarith [this]
  have h2 : v j = μ := by
    have := hall j (Finset.mem_range.mpr hj)
    nlinarith [this]
  exact hv (h1.trans h2.symm)

/-- The pixel x-variance is positive as soon as two samples land in
different x bins. -/
theorem covXX_pos (I : KdeInput) (i j : ℕ) (hi : i < nOf I) (hj : j < nOf I)
    (hv : pxQ I i ≠ pxQ I j) (hn : 2 ≤ nOf I) : 0 < covXX I := by
  unfold covXX
  apply div_pos (sum_sq_dev_pos (nOf I) (pxQ I) (meanX I) i j hi hj hv)
  have h2 : (2 : ℚ) ≤ (nOf I : ℚ) := by exact_mod_cast hn
  linarith

/-- The pixel y-variance is positive as soon as two samples land in
different y bins. -/
theorem covYY_pos (I : KdeInput) (i j : ℕ) (hi : i < nOf I) (hj : j < nOf I)
    (hv : pyQ I i ≠ pyQ I j) (hn : 2 ≤ nOf I) : 0 < covYY I := by
  unfold covYY
  apply div_pos (sum_sq_dev_pos (nOf I) (pyQ I) (meanY I) i j hi hj hv)
  have h2 : (2 : ℚ) ≤ (nOf I : ℚ) := by exact_mod_cast hn
  linarith

/-- The denominator `nx - 1` of the bin width is positive. -/
theorem gridden_pos (n : ℕ) (hn : 2 ≤ n) : (0 : ℚ) < (n : ℚ) - 1 := by
  have : (2 : ℚ) ≤ (n : ℚ) := by exact_mod_cast hn
  linarith

/-- The x bin width times its denominator recovers the x range. -/
theorem dx_mul (I : KdeInput) (hnx : 2 ≤ I.gridsize.1) :
    ((I.gridsize.1 : ℚ) - 1) * dxOf I = xmaxOf I - xminOf I := by
  rw [dxOf, mul_comm]
  exact div_mul_cancel₀ _ (ne_of_gt (gridden_pos _ hnx))

/-- The y bin width times its denominator recovers the y range. -/
theorem dy_mul (I : KdeInput) (hny : 2 ≤ I.gridsize.2) :
    ((I.gridsize.2 : ℚ) - 1) * dyOf I = ymaxOf I - yminOf I := by
  rw [dyOf, mul_comm]
  exact div_mul_cancel₀ _ (ne_of_gt (gridden_pos _ hny))

/-- An in-extent sample has a finite x bin index inside `[0, nx-1]`,
hitting `nx-1` exactly on the upper boundary. -/
theorem pixelX_bounds (I : KdeInput) (i : ℕ)
    (hnx : 2 ≤ I.gridsize.1) (hxr : xminOf I < xmaxOf I)
    (h1 : xminOf I ≤ I.x.getD i 0) (h2 : I.x.getD i 0 ≤ xmaxOf I) :
    pixelX I i = some ⌊(I.x.getD i 0 - xminOf I) / dxOf I⌋ ∧
    0 ≤ ⌊(I.x.getD i 0 - xminOf I) / dxOf I⌋ ∧
    ⌊(I.x.getD i 0 - xminOf I) / dxOf I⌋ ≤ (I.gridsize.1 : ℤ) - 1 ∧
    (I.x.getD i 0 = xmaxOf I →
      ⌊(I.x.getD i 0 - xminOf I) / dxOf I⌋ = (I.gridsize.1 : ℤ) - 1) := by
  have hden := gridden_pos _ hnx
  have hdx : 0 < dxOf I := div_pos (sub_pos.mpr hxr) hden
  have hkey := dx_mul I hnx
  have hcast : ((I.gridsize.1 : ℚ) - 1) = (((I.gridsize.1 : ℤ) - 1 : ℤ) : ℚ) := by
    push_cast; ring
  have htop : (xmaxOf I - xminOf I) / dxOf I = (I.gridsize.1 : ℚ) - 1 := by
    rw [div_eq_iff (ne_of_gt hdx)]
    linarith [hkey]
  refine ⟨if_neg (ne_of_gt hdx), ?_, ?_, ?_⟩
  · exact Int.floor_nonneg.mpr (div_nonneg (by linarith) hdx.le)
  · have hle : (I.x.getD i 0 - xminOf I) / dxOf I ≤ (I.gridsize.1 : ℚ) - 1 := by
      rw [← htop]
      exact (div_le_div_right hdx).mpr (by linarith)
    have hfl := Int.floor_le_floor hle
    rwa [hcast, Int.floor_intCast] at hfl
  · intro hb
    rw [hb, htop, hcast, Int.floor_intCast]

/-- An in-extent sample has a finite y bin index inside `[0, ny-1]`,
hitting `ny-1` exactly on the upper boundary. -/
theorem pixelY_bounds (I : KdeInput) (i : ℕ)
    (hny : 2 ≤ I.gridsize.2) (hyr : yminOf I < ymaxOf I)
    (h1 : yminOf I ≤ I.y.getD i 0) (h2 : I.y.getD i 0 ≤ ymaxOf I) :
    pixelY I i = some ⌊(I.y.getD i 0 - yminOf I) / dyOf I⌋ ∧
    0 ≤ ⌊(I.y.getD i 0 - yminOf I) / dyOf I⌋ ∧
    ⌊(I.y.getD i 0 - yminOf I) / dyOf I⌋ ≤ (I.gridsize.2 : ℤ) - 1 ∧
    (I.y.getD i 0 = ymaxOf I →
      ⌊(I.y.getD i 0 - yminOf I) / dyOf I⌋ = (I.gridsize.2 : ℤ) - 1) := by
  have hden := gridden_pos _ hny
  have hdy : 0 < dyOf I := div_pos (sub_pos.mpr hyr) hden
  have hkey := dy_mul I hny
  have hcast : ((I.gridsize.2 : ℚ) - 1) = (((I.gridsize.2 : ℤ) - 1 : ℤ) : ℚ) := by
    push_cast; ring
  have htop : (ymaxOf I - yminOf I) / dyOf I = (I.gridsize.2 : ℚ) - 1 := by
    rw [div_eq_iff (ne_of_gt hdy)]
    linarith [hkey]
  refine ⟨if_neg (ne_of_gt hdy), ?_, ?_, ?_⟩
  · exact Int.floor_nonneg.mpr (div_nonneg (by linarith) hdy.le)
  · have hle : (I.y.getD i 0 - yminOf I) / dyOf I ≤ (I.gridsize.2 : ℚ) - 1 := by
      rw [← htop]
      exact (div_le_div_right hdy).mpr (by linarith)
    have hfl := Int.floor_le_floor hle
    rwa [hcast, Int.floor_intCast] at hfl
  · intro hb
    rw [hb, htop, hcast, Int.floor_intCast]

/-! ### C10: floored indices stay inside the histogram -/

/-- C10: for a sample inside positive-range extents, the floored pixel
indices are finite and fall in `[0, nx-1] × [0, ny-1]`; a point exactly
on the upper boundary maps to the last bin and never overflows the
`(nx, ny)` histogram. -/
theorem pixel_index_in_range (I : KdeInput) (i : ℕ)
    (hnx : 2 ≤ I.gridsize.1) (hny : 2 ≤ I.gridsize.2)
    (hxr : xminOf I < xmaxOf I) (hyr : yminOf I < ymaxOf I)
    (hx1 : xminOf I ≤ I.x.getD i 0) (hx2 : I.x.getD i 0 ≤ xmaxOf I)
    (hy1 : yminOf I ≤ I.y.getD i 0) (hy2 : I.y.getD i 0 ≤ ymaxOf I) :
    pixelX I i = some ⌊(I.x.getD i 0 - xminOf I) / dxOf I⌋ ∧
    pixelY I i = some ⌊(I.y.getD i 0 - yminOf I) / dyOf I⌋ ∧
    0 ≤ ⌊(I.x.getD i 0 - xminOf I) / dxOf I⌋ ∧
    ⌊(I.x.getD i 0 - xminOf I) / dxOf I⌋ ≤ (I.gridsize.1 : ℤ) - 1 ∧
    0 ≤ ⌊(I.y.getD i 0 - yminOf I) / dyOf I⌋ ∧
    ⌊(I.y.getD i 0 - yminOf I) / dyOf I⌋ ≤ (I.gridsize.2 : ℤ) - 1 ∧
    (I.x.getD i 0 = xmaxOf I →
      ⌊(I.x.getD i 0 - xminOf I) / dxOf I⌋ = (I.gridsize.1 : ℤ) - 1) ∧
    (I.y.getD i 0 = ymaxOf I →
      ⌊(I.y.getD i 0 - yminOf I) / dyOf I⌋ = (I.gridsize.2 : ℤ) - 1) := by
  obtain ⟨hpx, ha0, ha1, ha2⟩ := pixelX_bounds I i hnx hxr hx1 hx2
  obtain ⟨hpy, hb0, hb1, hb2⟩ := pixelY_bounds I i hny hyr hy1 hy2
  exact ⟨hpx, hpy, ha0, ha1, hb0, hb1, ha2, hb2⟩

/-- Right edge of the example input. -/
theorem xmax_Iex : xmaxOf Iex = 2 := by
  norm_num [xmaxOf, extentsOf, listMax, Iex]

/-- Top edge of the example input. -/
theorem ymax_Iex : ymaxOf Iex = 2 := by
  norm_num [ymaxOf, extentsOf, listMax, Iex]

/-- Witness for C10 at sample 2 of the example input, which sits exactly
on the x upper boundary and so lands in the last x bin. -/
theorem pixel_index_in_range_witness :
    pixelX Iex 2 = some ⌊(Iex.x.getD 2 0 - xminOf Iex) / dxOf Iex⌋ ∧
    pixelY Iex 2 = some ⌊(Iex.y.getD 2 0 - yminOf Iex) / dyOf Iex⌋ ∧
    0 ≤ ⌊(Iex.x.getD 2 0 - xminOf Iex) / dxOf Iex⌋ ∧
    ⌊(Iex.x.getD 2 0 - xminOf Iex) / dxOf Iex⌋ ≤ (Iex.gridsize.1 : ℤ) - 1 ∧
    0 ≤ ⌊(Iex.y.getD 2 0 - yminOf Iex) / dyOf Iex⌋ ∧
    ⌊(Iex.y.getD 2 0 - yminOf Iex) / dyOf Iex⌋ ≤ (Iex.gridsize.2 : ℤ) - 1 ∧
    ⌊(Iex.x.getD 2 0 - xminOf Iex) / dxOf Iex⌋ = (Iex.gridsize.1 : ℤ) - 1 := by
  obtain ⟨h1, h2, h3, h4, h5, h6, h7, -⟩ :=
    pixel_index_in_range Iex 2 (by norm_num [Iex_gridsize]) (by norm_num [Iex_gridsize])
      (by norm_num [xmin_Iex, xmax_Iex]) (by norm_num [ymin_Iex, ymax_Iex])
      (by norm_num [xmin_Iex, Iex_x]) (by norm_num [xmax_Iex, Iex_x])
      (by norm_num [ymin_Iex, Iex_y]) (by norm_num [ymax_Iex, Iex_y])
  exact ⟨h1, h2, h3, h4, h5, h6, h7 (by norm_num [xmax_Iex, Iex_x])⟩

/-! ### C6: the independence flag avoids the singular inversion -/

/-- C6: for data with `y = x` (two distinct values, derived extents),
running with `nocorrelation` cannot produce the singular-matrix error:
the off-diagonal covariance is zeroed, and both variances are positive
because the minimum maps to bin 0 and the maximum to the last bin. -/
theorem nocorrelation_no_singular (I : KdeInput) (a b : ℚ)
    (hyx : I.y = I.x) (hext : I.extents = none) (hnoc : I.nocorrelation = true)
    (hgx : 2 ≤ I.gridsize.1) (hgy : 2 ≤ I.gridsize.2)
    (ha : a ∈ I.x) (hb : b ∈ I.x) (hab : a ≠ b) :
    plot_fast_kde I ≠ .error .singularMatrix := by
  intro h
  have hchk : kdeCheck I = some .singularMatrix := by
    unfold plot_fast_kde at h
    cases hc : kdeCheck I <;> rw [hc] at h
    · exact absurd h (by simp)
    · simp only [Except.error.injEq] at h
      rw [← h]
  obtain ⟨hdet, hn2, -⟩ := kdeCheckAux_singular_elim I _ hchk
  have hne : I.x ≠ [] := by intro hE; rw [hE] at ha; cases ha
  have hm := listMin_mem I.x hne
  have hM := listMax_mem I.x hne
  have hmM : listMin I.x < listMax I.x := by
    rcases lt_or_gt_of_ne hab with hlt | hlt
    · exact lt_of_le_of_lt (listMin_le I.x a ha)
        (lt_of_lt_of_le hlt (le_listMax I.x b hb))
    · exact lt_of_le_of_lt (listMin_le I.x b hb)
        (lt_of_lt_of_le hlt (le_listMax I.x a ha))
  have hxmin : xminOf I = listMin I.x := by simp [xminOf, extentsOf, hext]
  have hxmax : xmaxOf I = listMax I.x := by simp [xmaxOf, extentsOf, hext]
  have hymin : yminOf I = listMin I.x := by simp [yminOf, extentsOf, hext, hyx]
  have hymax : ymaxOf I = listMax I.x := by simp [ymaxOf, extentsOf, hext, hyx]
  obtain ⟨im, him, hmv⟩ := List.getElem_of_mem hm
  obtain ⟨iM, hiM, hMv⟩ := List.getElem_of_mem hM
  have hmv' : I.x.getD im 0 = listMin I.x := by
    rw [List.getD_eq_getElem _ _ him, hmv]
  have hMv' : I.x.getD iM 0 = listMax I.x := by
    rw [List.getD_eq_getElem _ _ hiM, hMv]
  have hxr : xminOf I < xmaxOf I := by rw [hxmin, hxmax]; exact hmM
  have hyr : yminOf I < ymaxOf I := by rw [hymin, hymax]; exact hmM
  have hdx : 0 < dxOf I := by
    rw [dxOf]
    exact div_pos (sub_pos.mpr hxr) (gridden_pos _ hgx)
  have hdy : 0 < dyOf I := by
    rw [dyOf]
    exact div_pos (sub_pos.mpr hyr) (gridden_pos _ hgy)
  have hpxm : pxQ I im = 0 := by
    rw [pxQ, pixelX, if_neg (ne_of_gt hdx), Option.getD_some, hmv', hxmin,
      sub_self, zero_div, Int.floor_zero, Int.cast_zero]
  have hpxM : pxQ I iM = (I.gridsize.1 : ℚ) - 1 := by
    obtain ⟨hpx, -, -, hbd⟩ := pixelX_bounds I iM hgx hxr
      (by rw [hMv', hxmin]; exact hmM.le) (by rw [hMv', hxmax])
    have h2 := hbd (by rw [hMv', hxmax])
    rw [pxQ, hpx, Option.getD_some, h2]
    norm_cast
  have hpxne : pxQ I im ≠ pxQ I iM := by
    rw [hpxm, hpxM]
    have hpos := gridden_pos _ hgx
    intro hcon
    rw [← hcon] at hpos
    exact lt_irrefl 0 hpos
  have hcovx : 0 < covXX I := covXX_pos I im iM him hiM hpxne hn2
  have hyv_m : I.y.getD im 0 = listMin I.x := by rw [hyx]; exact hmv'
  have hyv_M : I.y.getD iM 0 = listMax I.x := by rw [hyx]; exact hMv'
  have hpym : pyQ I im = 0 := by
    rw [pyQ, pixelY, if_neg (ne_of_gt hdy), Option.getD_some, hyv_m, hymin,
      sub_self, zero_div, Int.floor_zero, Int.cast_zero]
  have hpyM : pyQ I iM = (I.gridsize.2 : ℚ) - 1 := by
    obtain ⟨hpy, -, -, hbd⟩ := pixelY_bounds I iM hgy hyr
      (by rw [hyv_M, hymin]; exact hmM.le) (by rw [hyv_M, hymax])
    have h2 := hbd (by rw [hyv_M, hymax])
    rw [pyQ, hpy, Option.getD_some, h2]
    norm_cast
  have hpyne : pyQ I im ≠ pyQ I iM := by
    rw [hpym, hpyM]
    have hpos := gridden_pos _ hgy
    intro hcon
    rw [← hcon] at hpos
    exact lt_irrefl 0 hpos
  have hcovy : 0 < covYY I := covYY_pos I im iM him hiM hpyne hn2
  have hd0 : detCov I = covXX I * covYY I := by
    unfold detCov covXYeff
    rw [hnoc]
    simp
  rw [hd0] at hdet
  exact (ne_of_gt (mul_pos hcovx hcovy)) hdet

/-- Perfectly correlated data for the independence-flag witness. -/
def Icor : KdeInput :=
  { x := [0, 1], y := [0, 1], gridsize := (2, 2), nocorrelation := true }

/-- Witness for C6 at perfectly correlated concrete data. -/
theorem nocorrelation_no_singular_witness :
    plot_fast_kde Icor ≠ .error .singularMatrix :=
  nocorrelation_no_singular Icor 0 1 rfl rfl rfl (by decide) (by decide)
    (by norm_num [Icor]) (by norm_num [Icor]) (by norm_num)

/-! ### C5: degenerate point clouds and the singular inversion -/

/-- Collinear data (`y = x/2`) whose floored pixel coordinates are NOT
rank-deficient: grid `(3, 2)` bends the collinear points at the binning
stage. -/
def Icol : KdeInput :=
  { x := [0, 1, 2], y := [0, 1/2, 1], kern_nx := some 1, kern_ny := some 1,
    gridsize := (3, 2) }

/-- The x data of the collinear input. -/
theorem Icol_x : Icol.x = [0, 1, 2] := rfl

/-- The y data of the collinear input. -/
theorem Icol_y : Icol.y = [0, 1/2, 1] := rfl

/-- The grid size of the collinear input. -/
theorem Icol_gridsize : Icol.gridsize = (3, 2) := rfl

/-- Sample count of the collinear input. -/
theorem nOf_Icol : nOf Icol = 3 := rfl

/-- Left edge of the collinear input. -/
theorem xmin_Icol : xminOf Icol = 0 := by
  norm_num [xminOf, extentsOf, listMin, Icol]

/-- Bottom edge of the collinear input. -/
theorem ymin_Icol : yminOf Icol = 0 := by
  norm_num [yminOf, extentsOf, listMin, Icol]

/-- Bin width along x of the collinear input. -/
theorem dx_Icol : dxOf Icol = 1 := by
  norm_num [dxOf, xmaxOf, xminOf, extentsOf, listMin, listMax, Icol]

/-- Bin width along y of the collinear input. -/
theorem dy_Icol : dyOf Icol = 1 := by
  norm_num [dyOf, ymaxOf, yminOf, extentsOf, listMin, listMax, Icol]

/-- Pixel x-indices of the collinear input. -/
theorem pixelX_Icol :
    pixelX Icol 0 = some 0 ∧ pixelX Icol 1 = some 1 ∧ pixelX Icol 2 = some 2 := by
  norm_num [pixelX, dx_Icol, xmin_Icol, Icol_x]

/-- Pixel y-indices of the collinear input: flooring bends the line. -/
theorem pixelY_Icol :
    pixelY Icol 0 = some 0 ∧ pixelY Icol 1 = some 0 ∧ pixelY Icol 2 = some 1 := by
  norm_num [pixelY, dy_Icol, ymin_Icol, Icol_y]

/-- All bin indices of the collinear input are accepted. -/
theorem indicesOK_Icol : indicesOK Icol = true := by
  rw [indicesOK, List.all_eq_true]
  intro i hi
  rw [List.mem_range, nOf_Icol] at hi
  interval_cases i <;>
    simp [pixelX_Icol.1, pixelX_Icol.2.1, pixelX_Icol.2.2,
      pixelY_Icol.1, pixelY_Icol.2.1, pixelY_Icol.2.2, Icol_gridsize]

/-- The collinear input keeps its correlation term. -/
theorem Icol_noc : Icol.nocorrelation = false := rfl

/-- Covariance determinant of the collinear input: positive, because the
covariance is taken on floored pixel coordinates. -/
theorem detCov_Icol : detCov Icol = 1 / 12 := by
  norm_num [detCov, covXX, covYY, covXY, covXYeff, meanX, meanY, nOf_Icol,
    Icol_noc, pxQ, pyQ, pixelX_Icol.1, pixelX_Icol.2.1, pixelX_Icol.2.2,
    pixelY_Icol.1, pixelY_Icol.2.1, pixelY_Icol.2.2, Finset.sum_range_succ]

/-- The weights of the collinear input have a valid shape. -/
theorem weightsBad_Icol : weightsBad Icol = false := rfl

/-- The check pipeline accepts the collinear input. -/
theorem kdeCheck_Icol : kdeCheck Icol = none := by
  rw [kdeCheck_of_explicit Icol 1 1 rfl rfl]
  rw [kdeCheckAux, dx_Icol, dy_Icol]
  norm_num [weightsBad_Icol, nOf_Icol, indicesOK_Icol, detCov_Icol, npRoundQ_one,
    Icol_x, Icol_y]
  norm_num [Icol]

/-- C5 counterexample: perfectly collinear data (`y = x/2`, correlation
kept) does NOT raise the singular-matrix error — the covariance is taken
on floored pixel coordinates, which are not collinear here, and the run
returns a grid. -/
theorem collinear_counterexample :
    Icol.y = Icol.x.map (fun t => t / 2) ∧
    Icol.nocorrelation = false ∧
    plot_fast_kde Icol = .ok (kdeGrid Icol) := by
  refine ⟨by norm_num [Icol], rfl, ?_⟩
  exact (plot_fast_kde_ok_iff Icol).mpr kdeCheck_Icol

/-- A constant family has its average at the constant. -/
theorem mean_const (n : ℕ) (v : ℕ → ℚ) (c : ℚ) (hn : n ≠ 0)
    (hv : ∀ k, k < n → v k = c) :
    (∑ k ∈ Finset.range n, v k) / (n : ℚ) = c := by
  rw [Finset.sum_congr rfl (fun k hk => hv k (Finset.mem_range.mp hk)),
    Finset.sum_const, Finset.card_range, nsmul_eq_mul,
    mul_div_cancel_left₀ c (Nat.cast_ne_zero.mpr hn)]

/-- C5 amended: a run on at least two samples that all carry the SAME
point (inside valid explicit extents) reaches the inversion with an
all-zero pixel covariance and fails with the singular-matrix error.
(For merely collinear data the error need not occur, and for fewer than
two samples the covariance is NaN rather than singular.) -/
theorem identical_points_singular (I : KdeInput) (p q xm xM ym yM : ℚ)
    (hn : 2 ≤ nOf I) (hlen : I.y.length = I.x.length)
    (hxall : ∀ a ∈ I.x, a = p) (hyall : ∀ c ∈ I.y, c = q)
    (hw : I.weights = none) (hext : I.extents = some (xm, xM, ym, yM))
    (hgx : 2 ≤ I.gridsize.1) (hgy : 2 ≤ I.gridsize.2)
    (hx1 : xm ≤ p) (hx2 : p ≤ xM) (hy1 : ym ≤ q) (hy2 : q ≤ yM)
    (hxr : xm < xM) (hyr : ym < yM) :
    plot_fast_kde I = .error .singularMatrix := by
  have hXmin : xminOf I = xm := by simp [xminOf, extentsOf, hext]
  have hXmax : xmaxOf I = xM := by simp [xmaxOf, extentsOf, hext]
  have hYmin : yminOf I = ym := by simp [yminOf, extentsOf, hext]
  have hYmax : ymaxOf I = yM := by simp [ymaxOf, extentsOf, hext]
  have hxr' : xminOf I < xmaxOf I := by rw [hXmin, hXmax]; exact hxr
  have hyr' : yminOf I < ymaxOf I := by rw [hYmin, hYmax]; exact hyr
  have hxv : ∀ i, i < nOf I → I.x.getD i 0 = p := by
    intro i hi
    rw [List.getD_eq_getElem _ _ hi]
    exact hxall _ (List.getElem_mem _)
  have hyv : ∀ i, i < nOf I → I.y.getD i 0 = q := by
    intro i hi
    have hi' : i < I.y.length := by rw [hlen]; exact hi
    rw [List.getD_eq_getElem _ _ hi']
    exact hyall _ (List.getElem_mem _)
  have hpx : ∀ i, i < nOf I → pixelX I i = some ⌊(p - xm) / dxOf I⌋ ∧
      0 ≤ ⌊(p - xm) / dxOf I⌋ ∧ ⌊(p - xm) / dxOf I⌋ ≤ (I.gridsize.1 : ℤ) - 1 := by
    intro i hi
    obtain ⟨h1, h2, h3, -⟩ := pixelX_bounds I i hgx hxr'
      (by rw [hxv i hi, hXmin]; exact hx1) (by rw [hxv i hi, hXmax]; exact hx2)
    rw [hxv i hi, hXmin] at h1 h2 h3
    exact ⟨h1, h2, h3⟩
  have hpy : ∀ i, i < nOf I → pixelY I i = some ⌊(q - ym) / dyOf I⌋ ∧
      0 ≤ ⌊(q - ym) / dyOf I⌋ ∧ ⌊(q - ym) / dyOf I⌋ ≤ (I.gridsize.2 : ℤ) - 1 := by
    intro i hi
    obtain ⟨h1, h2, h3, -⟩ := pixelY_bounds I i hgy hyr'
      (by rw [hyv i hi, hYmin]; exact hy1) (by rw [hyv i hi, hYmax]; exact hy2)
    rw [hyv i hi, hYmin] at h1 h2 h3
    exact ⟨h1, h2, h3⟩
  have hpxc : ∀ i, i < nOf I → pxQ I i = ((⌊(p - xm) / dxOf I⌋ : ℤ) : ℚ) := by
    intro i hi
    rw [pxQ, (hpx i hi).1, Option.getD_some]
  have hpyc : ∀ i, i < nOf I → pyQ I i = ((⌊(q - ym) / dyOf I⌋ : ℤ) : ℚ) := by
    intro i hi
    rw [pyQ, (hpy i hi).1, Option.getD_some]
  have hidx : indicesOK I = true := by
    rw [indicesOK, List.all_eq_true]
    intro i hi
    rw [List.mem_range] at hi
    obtain ⟨h1, h2, h3⟩ := hpx i hi
    obtain ⟨h4, h5, h6⟩ := hpy i hi
    rw [h1, h4]
    show decide ((0 : ℤ) ≤ ⌊(p - xm) / dxOf I⌋ ∧
      ⌊(p - xm) / dxOf I⌋ < (I.gridsize.1 : ℤ) ∧
      (0 : ℤ) ≤ ⌊(q - ym) / dyOf I⌋ ∧
      ⌊(q - ym) / dyOf I⌋ < (I.gridsize.2 : ℤ)) = true
    rw [decide_eq_true_eq]
    refine ⟨h2, by omega, h5, by omega⟩
  have hnz : nOf I ≠ 0 := by omega
  have hmx : meanX I = ((⌊(p - xm) / dxOf I⌋ : ℤ) : ℚ) := by
    unfold meanX
    exact mean_const _ _ _ hnz hpxc
  have hmy : meanY I = ((⌊(q - ym) / dyOf I⌋ : ℤ) : ℚ) := by
    unfold meanY
    exact mean_const _ _ _ hnz hpyc
  have hxx : covXX I = 0 := by
    have hz : ∑ k ∈ Finset.range (nOf I), (pxQ I k - meanX I) ^ 2 = 0 :=
      Finset.sum_eq_zero fun k hk => by
        rw [hpxc k (Finset.mem_range.mp hk), hmx]; ring
    unfold covXX
    rw [hz, zero_div]
  have hyy : covYY I = 0 := by
    have hz : ∑ k ∈ Finset.range (nOf I), (pyQ I k - meanY I) ^ 2 = 0 :=
      Finset.sum_eq_zero fun k hk => by
        rw [hpyc k (Finset.mem_range.mp hk), hmy]; ring
    unfold covYY
    rw [hz, zero_div]
  have hxy : covXY I = 0 := by
    have hz : ∑ k ∈ Finset.range (nOf I),
        (pxQ I k - meanX I) * (pyQ I k - meanY I) = 0 :=
      Finset.sum_eq_zero fun k hk => by
        rw [hpxc k (Finset.mem_range.mp hk), hmx]; ring
    unfold covXY
    rw [hz, zero_div]
  have hdet : detCov I = 0 := by
    unfold detCov covXYeff
    split_ifs <;> rw [hxx, hyy] <;> simp [hxy]
  have hchk : kdeCheck I = some .singularMatrix := by
    unfold kdeCheck kdeCheckAux
    rw [if_neg (fun hc => hc hlen.symm)]
    rw [if_neg (show ¬(weightsBad I = true) by simp [weightsBad, hw])]
    rw [if_neg (show ¬(I.extents = none ∧ nOf I = 0) from
      fun hc => by rw [hext] at hc; exact absurd hc.1 (by simp))]
    rw [if_neg (show ¬(indicesOK I = false) by rw [hidx]; simp)]
    rw [if_neg (show ¬(nOf I < 2) by omega)]
    rw [if_pos hdet]
  unfold plot_fast_kde
  rw [hchk]

/-- Two copies of a single point inside valid explicit extents. -/
def Iid : KdeInput :=
  { x := [1, 1], y := [1, 1], extents := some (0, 2, 0, 2), gridsize := (3, 3) }

/-- Witness for the amended C5: the all-identical input fails with the
singular-matrix error. -/
theorem identical_points_singular_witness :
    plot_fast_kde Iid = .error .singularMatrix :=
  identical_points_singular Iid 1 1 0 2 0 2 (by decide) rfl
    (by intro a ha; simp [Iid] at ha; exact ha)
    (by intro c hc; simp [Iid] at hc; exact hc)
    rfl rfl (by decide) (by decide)
    (by norm_num) (by norm_num) (by norm_num) (by norm_num)
    (by norm_num) (by norm_num)

/-! ### C3: non-negativity of the returned grid -/

/-- Histogram cells are non-negative under non-negative weights. -/
theorem histGrid_entry_nonneg (I : KdeInput)
    (hw : ∀ w ∈ weightsOf I, 0 ≤ w) :
    ∀ a b, 0 ≤ (histGrid I).entry a b := by
  intro a b
  show 0 ≤ ∑ i ∈ Finset.range (nOf I),
    if pixelX I i = some (a : ℤ) ∧ pixelY I i = some (b : ℤ)
    then (((weightsOf I).getD i 0 : ℚ) : ℝ) else 0
  apply Finset.sum_nonneg
  intro i _
  split_ifs
  · have h0 : 0 ≤ (weightsOf I).getD i 0 := by
      rcases lt_or_ge i (weightsOf I).length with hlt | hge
      · rw [List.getD_eq_getElem _ _ hlt]
        exact hw _ (List.getElem_mem _)
      · rw [List.getD_eq_default _ _ hge]
    exact_mod_cast h0
  · exact le_refl 0

/-- Every kernel cell is a positive exponential. -/
theorem kernelGrid_entry_nonneg (I : KdeInput) :
    ∀ v u, 0 ≤ (kernelGrid I).entry v u := fun _ _ => (Real.exp_pos _).le

/-- Zero-extended access preserves non-negativity. -/
theorem entryZ_nonneg (g : Grid) (hg : ∀ a b, 0 ≤ g.entry a b) (i j : ℤ) :
    0 ≤ entryZ g i j := by
  unfold entryZ
  split_ifs
  · exact hg _ _
  · exact le_refl 0

/-- Convolution of non-negative grids is non-negative. -/
theorem convSame_entry_nonneg (A K : Grid)
    (hA : ∀ a b, 0 ≤ A.entry a b) (hK : ∀ a b, 0 ≤ K.entry a b) :
    ∀ i j, 0 ≤ (convSame A K).entry i j := by
  intro i j
  show 0 ≤ ∑ u ∈ Finset.range K.rows, ∑ v ∈ Finset.range K.cols,
    K.entry u v * entryZ A ((i : ℤ) + ((K.rows - 1) / 2 : ℕ) - u)
      ((j : ℤ) + ((K.cols - 1) / 2 : ℕ) - v)
  apply Finset.sum_nonneg
  intro u _
  apply Finset.sum_nonneg
  intro v _
  exact mul_nonneg (hK u v) (entryZ_nonneg A hA _ _)

/-- The kernel-only normalization constant is a square root. -/
theorem normFactor0_nonneg (I : KdeInput) : 0 ≤ normFactor0 I :=
  Real.sqrt_nonneg _

/-- The normalization divisor is non-negative for valid extents. -/
theorem normFactor_nonneg (I : KdeInput) (hdx : 0 ≤ dxOf I) (hdy : 0 ≤ dyOf I) :
    0 ≤ normFactor I := by
  unfold normFactor
  split_ifs
  · refine mul_nonneg (mul_nonneg (mul_nonneg (normFactor0_nonneg I)
      (Nat.cast_nonneg _)) ?_) ?_
    · exact_mod_cast hdx
    · exact_mod_cast hdy
  · exact normFactor0_nonneg I

/-- C3: with non-negative weights (the default all-ones included) and
valid extents, every cell of a returned grid is non-negative: the
histogram and the Gaussian kernel are non-negative, convolution keeps
that, and the divisor is non-negative. -/
theorem plot_fast_kde_nonneg (I : KdeInput) (g : Grid) (i j : ℕ)
    (h : plot_fast_kde I = .ok g)
    (hw : ∀ w ∈ weightsOf I, 0 ≤ w)
    (hdx : 0 ≤ dxOf I) (hdy : 0 ≤ dyOf I) :
    0 ≤ g.entry i j := by
  obtain ⟨rfl, -⟩ := plot_fast_kde_ok_elim I g h
  show 0 ≤ (normFactor I)⁻¹ * (convSame (histGrid I) (kernelGrid I)).entry j i
  exact mul_nonneg (inv_nonneg.mpr (normFactor_nonneg I hdx hdy))
    (convSame_entry_nonneg _ _ (histGrid_entry_nonneg I hw)
      (kernelGrid_entry_nonneg I) j i)

/-- Witness for C3 at a cell of the example run. -/
theorem plot_fast_kde_nonneg_witness : 0 ≤ (kdeGrid Iex).entry 1 1 :=
  plot_fast_kde_nonneg Iex (kdeGrid Iex) 1 1 plot_fast_kde_Iex
    (by
      intro w hmem
      have hrep : weightsOf Iex = List.replicate 3 1 := rfl
      rw [hrep] at hmem
      rw [List.eq_of_mem_replicate hmem]
      norm_num)
    (by rw [dx_Iex]; norm_num) (by rw [dy_Iex]; norm_num)

/-! ### C2: mass of the normalized grid -/

/-- Fubini for a triple sum over finite ranges. -/
theorem sum_swap3 {M : Type} [AddCommMonoid M] (s1 s2 s3 : Finset ℕ)
    (g : ℕ → ℕ → ℕ → M) :
    (∑ a ∈ s1, ∑ b ∈ s2, ∑ i ∈ s3, g a b i)
      = ∑ i ∈ s3, ∑ a ∈ s1, ∑ b ∈ s2, g a b i :=
  calc (∑ a ∈ s1, ∑ b ∈ s2, ∑ i ∈ s3, g a b i)
      = ∑ a ∈ s1, ∑ i ∈ s3, ∑ b ∈ s2, g a b i :=
        Finset.sum_congr rfl fun _ _ => Finset.sum_comm
    _ = ∑ i ∈ s3, ∑ a ∈ s1, ∑ b ∈ s2, g a b i := Finset.sum_comm

/-- Fubini for a quadruple sum over finite ranges. -/
theorem sum_swap4 {M : Type} [AddCommMonoid M] (s1 s2 s3 s4 : Finset ℕ)
    (g : ℕ → ℕ → ℕ → ℕ → M) :
    (∑ i ∈ s1, ∑ j ∈ s2, ∑ u ∈ s3, ∑ v ∈ s4, g i j u v)
      = ∑ u ∈ s3, ∑ v ∈ s4, ∑ i ∈ s1, ∑ j ∈ s2, g i j u v :=
  calc (∑ i ∈ s1, ∑ j ∈ s2, ∑ u ∈ s3, ∑ v ∈ s4, g i j u v)
      = ∑ i ∈ s1, ∑ u ∈ s3, ∑ j ∈ s2, ∑ v ∈ s4, g i j u v :=
        Finset.sum_congr rfl fun _ _ => Finset.sum_comm
    _ = ∑ u ∈ s3, ∑ i ∈ s1, ∑ j ∈ s2, ∑ v ∈ s4, g i j u v := Finset.sum_comm
    _ = ∑ u ∈ s3, ∑ i ∈ s1, ∑ v ∈ s4, ∑ j ∈ s2, g i j u v :=
        Finset.sum_congr rfl fun _ _ =>
          Finset.sum_congr rfl fun _ _ => Finset.sum_comm
    _ = ∑ u ∈ s3, ∑ v ∈ s4, ∑ i ∈ s1, ∑ j ∈ s2, g i j u v :=
        Finset.sum_congr rfl fun _ _ => Finset.sum_comm

/-- Transposing a grid preserves its total mass. -/
theorem sumGrid_transpose (g : Grid) : sumGrid (transposeGrid g) = sumGrid g := by
  unfold sumGrid transposeGrid
  exact Finset.sum_comm

/-- Scaling a grid scales its total mass. -/
theorem sumGrid_smul (c : ℝ) (g : Grid) : sumGrid (smulGrid c g) = c * sumGrid g := by
  unfold sumGrid smulGrid
  simp [Finset.mul_sum]

/-- The total mass of a non-negative grid is non-negative. -/
theorem sumGrid_nonneg (g : Grid) (hg : ∀ a b, 0 ≤ g.entry a b) : 0 ≤ sumGrid g :=
  Finset.sum_nonneg fun _ _ => Finset.sum_nonneg fun _ _ => hg _ _

/-- A sum of a single indicator over a range collapses. -/
theorem sum_ite_cast_eq (N : ℕ) (p : ℤ) (hp0 : 0 ≤ p) (hpN : p < (N : ℤ)) (f : ℝ) :
    (∑ a ∈ Finset.range N, if p = (a : ℤ) then f else 0) = f := by
  have hcongr : ∀ a ∈ Finset.range N,
      (if p = (a : ℤ) then f else 0) = (if a = p.toNat then f else 0) := by
    intro a _
    have hiff : (p = (a : ℤ)) ↔ (a = p.toNat) := by omega
    by_cases hc : p = (a : ℤ)
    · rw [if_pos hc, if_pos (hiff.mp hc)]
    · rw [if_neg hc, if_neg (fun hc2 => hc (hiff.mpr hc2))]
  rw [Finset.sum_congr rfl hcongr, Finset.sum_ite_eq' (Finset.range N) p.toNat fun _ => f,
    if_pos (Finset.mem_range.mpr (by omega))]

/-- A double sum of a pair indicator over in-range indices collapses. -/
theorem sum2_ite_pair (N M : ℕ) (p q : ℤ) (hp0 : 0 ≤ p) (hpN : p < (N : ℤ))
    (hq0 : 0 ≤ q) (hqM : q < (M : ℤ)) (f : ℝ) :
    (∑ a ∈ Finset.range N, ∑ b ∈ Finset.range M,
      if p = (a : ℤ) ∧ q = (b : ℤ) then f else 0) = f := by
  have hinner : ∀ a ∈ Finset.range N,
      (∑ b ∈ Finset.range M, if p = (a : ℤ) ∧ q = (b : ℤ) then f else 0)
        = (if p = (a : ℤ) then f else 0) := by
    intro a _
    by_cases hA : p = (a : ℤ)
    · rw [if_pos hA]
      have hstep : ∀ b ∈ Finset.range M,
          (if p = (a : ℤ) ∧ q = (b : ℤ) then f else 0)
            = (if q = (b : ℤ) then f else 0) := by
        intro b _
        by_cases hB : q = (b : ℤ)
        · rw [if_pos ⟨hA, hB⟩, if_pos hB]
        · rw [if_neg (fun hc => hB hc.2), if_neg hB]
      rw [Finset.sum_congr rfl hstep]
      exact sum_ite_cast_eq M q hq0 hqM f
    · rw [if_neg hA]
      exact Finset.sum_eq_zero fun b _ => if_neg (fun hc => hA hc.1)
  rw [Finset.sum_congr rfl hinner]
  exact sum_ite_cast_eq N p hp0 hpN f

/-- With accepted indices, the histogram mass is the sum of the weights. -/
theorem sumGrid_hist (I : KdeInput) (hidx : indicesOK I = true) :
    sumGrid (histGrid I) =
      ∑ i ∈ Finset.range (nOf I), (((weightsOf I).getD i 0 : ℚ) : ℝ) := by
  unfold sumGrid histGrid
  rw [sum_swap3]
  refine Finset.sum_congr rfl fun i hi => ?_
  show (∑ a ∈ Finset.range I.gridsize.1, ∑ b ∈ Finset.range I.gridsize.2,
      if pixelX I i = some (a : ℤ) ∧ pixelY I i = some (b : ℤ)
      then (((weightsOf I).getD i 0 : ℚ) : ℝ) else 0)
    = (((weightsOf I).getD i 0 : ℚ) : ℝ)
  rw [indicesOK, List.all_eq_true] at hidx
  have h := hidx i (List.mem_range.mpr (Finset.mem_range.mp hi))
  cases hpx : pixelX I i with
  | none => rw [hpx] at h; exact absurd h (by simp)
  | some a0 =>
    cases hpy : pixelY I i with
    | none => rw [hpx, hpy] at h; exact absurd h (by simp)
    | some b0 =>
      rw [hpx, hpy] at h
      obtain ⟨ha0, ha1, hb0, hb1⟩ := of_decide_eq_true h
      have hcond : ∀ a ∈ Finset.range I.gridsize.1, ∀ b ∈ Finset.range I.gridsize.2,
          (if some a0 = some (a : ℤ) ∧ some b0 = some (b : ℤ)
            then (((weightsOf I).getD i 0 : ℚ) : ℝ) else 0)
          = (if a0 = (a : ℤ) ∧ b0 = (b : ℤ)
            then (((weightsOf I).getD i 0 : ℚ) : ℝ) else 0) := by
        intro a _ b _
        simp only [Option.some.injEq]
      rw [Finset.sum_congr rfl fun a ha =>
        Finset.sum_congr rfl fun b hb => hcond a ha b hb]
      exact sum2_ite_pair _ _ a0 b0 ha0 ha1 hb0 hb1 _

/-- A zero-padded shifted window sums to at most the whole grid. -/
theorem sum2_entryZ_le (A : Grid) (hA : ∀ a b, 0 ≤ A.entry a b) (s t : ℤ) (r c : ℕ) :
    (∑ i ∈ Finset.range r, ∑ j ∈ Finset.range c,
      entryZ A ((i : ℤ) + s) ((j : ℤ) + t)) ≤ sumGrid A := by
  classical
  rw [← Finset.sum_product']
  have hstep : (∑ p ∈ Finset.range r ×ˢ Finset.range c,
      entryZ A ((p.1 : ℤ) + s) ((p.2 : ℤ) + t)) =
      ∑ p ∈ (Finset.range r ×ˢ Finset.range c).filter
        (fun p => 0 ≤ (p.1 : ℤ) + s ∧ (p.1 : ℤ) + s < (A.rows : ℤ) ∧
          0 ≤ (p.2 : ℤ) + t ∧ (p.2 : ℤ) + t < (A.cols : ℤ)),
        A.entry ((p.1 : ℤ) + s).toNat ((p.2 : ℤ) + t).toNat := by
    rw [Finset.sum_filter]
    exact Finset.sum_congr rfl fun p _ => rfl
  rw [hstep]
  have hinj : ∀ p ∈ (Finset.range r ×ˢ Finset.range c).filter
      (fun p => 0 ≤ (p.1 : ℤ) + s ∧ (p.1 : ℤ) + s < (A.rows : ℤ) ∧
        0 ≤ (p.2 : ℤ) + t ∧ (p.2 : ℤ) + t < (A.cols : ℤ)),
      ∀ p' ∈ (Finset.range r ×ˢ Finset.range c).filter
      (fun p => 0 ≤ (p.1 : ℤ) + s ∧ (p.1 : ℤ) + s < (A.rows : ℤ) ∧
        0 ≤ (p.2 : ℤ) + t ∧ (p.2 : ℤ) + t < (A.cols : ℤ)),
      (fun p : ℕ × ℕ => (((p.1 : ℤ) + s).toNat, ((p.2 : ℤ) + t).toNat)) p =
        (fun p : ℕ × ℕ => (((p.1 : ℤ) + s).toNat, ((p.2 : ℤ) + t).toNat)) p' →
        p = p' := by
    intro p hp p' hp' heq
    simp only [Finset.mem_filter, Finset.mem_product, Finset.mem_range] at hp hp'
    obtain ⟨-, hc1, -, hc3, -⟩ := hp
    obtain ⟨-, hd1, -, hd3, -⟩ := hp'
    have e1 := congrArg Prod.fst heq
    have e2 := congrArg Prod.snd heq
    simp only at e1 e2
    have hfst : p.1 = p'.1 := by omega
    have hsnd : p.2 = p'.2 := by omega
    exact Prod.ext hfst hsnd
  have himg : (∑ q ∈ ((Finset.range r ×ˢ Finset.range c).filter
      (fun p => 0 ≤ (p.1 : ℤ) + s ∧ (p.1 : ℤ) + s < (A.rows : ℤ) ∧
        0 ≤ (p.2 : ℤ) + t ∧ (p.2 : ℤ) + t < (A.cols : ℤ))).image
      (fun p : ℕ × ℕ => (((p.1 : ℤ) + s).toNat, ((p.2 : ℤ) + t).toNat)),
      A.entry q.1 q.2)
      = ∑ p ∈ (Finset.range r ×ˢ Finset.range c).filter
        (fun p => 0 ≤ (p.1 : ℤ) + s ∧ (p.1 : ℤ) + s < (A.rows : ℤ) ∧
          0 ≤ (p.2 : ℤ) + t ∧ (p.2 : ℤ) + t < (A.cols : ℤ)),
        A.entry ((p.1 : ℤ) + s).toNat ((p.2 : ℤ) + t).toNat :=
    Finset.sum_image hinj
  rw [← himg]
  have hsub : ((Finset.range r ×ˢ Finset.range c).filter
      (fun p => 0 ≤ (p.1 : ℤ) + s ∧ (p.1 : ℤ) + s < (A.rows : ℤ) ∧
        0 ≤ (p.2 : ℤ) + t ∧ (p.2 : ℤ) + t < (A.cols : ℤ))).image
      (fun p : ℕ × ℕ => (((p.1 : ℤ) + s).toNat, ((p.2 : ℤ) + t).toNat)) ⊆
      Finset.range A.rows ×ˢ Finset.range A.cols := by
    intro q hq
    simp only [Finset.mem_image, Finset.mem_filter, Finset.mem_product,
      Finset.mem_range] at hq ⊢
    obtain ⟨p, ⟨⟨-, -⟩, hc1, hc2, hc3, hc4⟩, rfl⟩ := hq
    exact ⟨by omega, by omega⟩
  refine le_trans (Finset.sum_le_sum_of_subset_of_nonneg hsub
    (fun q _ _ => hA q.1 q.2)) ?_
  rw [Finset.sum_product']
  exact le_of_eq rfl

/-- The convolved mass is at most kernel mass times histogram mass. -/
theorem sumGrid_conv_le (A K : Grid) (hA : ∀ a b, 0 ≤ A.entry a b)
    (hK : ∀ a b, 0 ≤ K.entry a b) :
    sumGrid (convSame A K) ≤ sumGrid K * sumGrid A := by
  unfold sumGrid convSame
  rw [sum_swap4]
  have hb : ∀ u ∈ Finset.range K.rows, ∀ v ∈ Finset.range K.cols,
      (∑ i ∈ Finset.range A.rows, ∑ j ∈ Finset.range A.cols,
        K.entry u v * entryZ A ((i : ℤ) + ((K.rows - 1) / 2 : ℕ) - (u : ℤ))
          ((j : ℤ) + ((K.cols - 1) / 2 : ℕ) - (v : ℤ)))
      ≤ K.entry u v * sumGrid A := by
    intro u _ v _
    have hpull : (∑ i ∈ Finset.range A.rows, ∑ j ∈ Finset.range A.cols,
        K.entry u v * entryZ A ((i : ℤ) + ((K.rows - 1) / 2 : ℕ) - (u : ℤ))
          ((j : ℤ) + ((K.cols - 1) / 2 : ℕ) - (v : ℤ)))
        = K.entry u v * ∑ i ∈ Finset.range A.rows, ∑ j ∈ Finset.range A.cols,
          entryZ A ((i : ℤ) + ((K.rows - 1) / 2 : ℕ) - (u : ℤ))
            ((j : ℤ) + ((K.cols - 1) / 2 : ℕ) - (v : ℤ)) := by
      rw [Finset.mul_sum]
      exact Finset.sum_congr rfl fun i _ => (Finset.mul_sum _ _ _).symm
    rw [hpull]
    apply mul_le_mul_of_nonneg_left _ (hK u v)
    have hgen := sum2_entryZ_le A hA ((((K.rows - 1) / 2 : ℕ) : ℤ) - (u : ℤ))
      ((((K.cols - 1) / 2 : ℕ) : ℤ) - (v : ℤ)) A.rows A.cols
    have hassoc : ∀ i j : ℕ,
        entryZ A ((i : ℤ) + ((((K.rows - 1) / 2 : ℕ) : ℤ) - (u : ℤ)))
          ((j : ℤ) + ((((K.cols - 1) / 2 : ℕ) : ℤ) - (v : ℤ)))
        = entryZ A ((i : ℤ) + ((K.rows - 1) / 2 : ℕ) - (u : ℤ))
          ((j : ℤ) + ((K.cols - 1) / 2 : ℕ) - (v : ℤ)) := by
      intro i j
      congr 1 <;> ring
    calc (∑ i ∈ Finset.range A.rows, ∑ j ∈ Finset.range A.cols,
          entryZ A ((i : ℤ) + ((K.rows - 1) / 2 : ℕ) - (u : ℤ))
            ((j : ℤ) + ((K.cols - 1) / 2 : ℕ) - (v : ℤ)))
        = ∑ i ∈ Finset.range A.rows, ∑ j ∈ Finset.range A.cols,
          entryZ A ((i : ℤ) + ((((K.rows - 1) / 2 : ℕ) : ℤ) - (u : ℤ)))
            ((j : ℤ) + ((((K.cols - 1) / 2 : ℕ) : ℤ) - (v : ℤ))) :=
          Finset.sum_congr rfl fun i _ => Finset.sum_congr rfl fun j _ =>
            (hassoc i j).symm
      _ ≤ sumGrid A := hgen
  refine le_trans (Finset.sum_le_sum fun u hu => Finset.sum_le_sum fun v hv =>
    hb u hu v hv) ?_
  rw [Finset.sum_mul]
  exact le_of_eq (Finset.sum_congr rfl fun u _ => by
    rw [Finset.sum_mul]
    exact Finset.sum_congr rfl fun v _ => rfl)

/-- C2 amended: with `norm=True` (and `pdf=False`) the integral
`sum(grid) * dx * dy` of a returned grid is bounded by the total weight
times the kernel mass over `n * normFactor0`; zero-padding at the
boundary only removes mass, so the integral approximates 1 only insofar
as the truncated kernel mass approximates the analytic constant — it is
NOT within 1e-2 of 1 for all valid inputs. -/
theorem norm_integral_upper_bound (I : KdeInput) (g : Grid)
    (h : plot_fast_kde I = .ok g) (hnorm : I.norm = true) (_hpdf : I.pdf = false)
    (hw : ∀ w ∈ weightsOf I, 0 ≤ w) (hdx : 0 < dxOf I) (hdy : 0 < dyOf I) :
    sumGrid g * (dxOf I : ℝ) * (dyOf I : ℝ) ≤
      (∑ i ∈ Finset.range (nOf I), (((weightsOf I).getD i 0 : ℚ) : ℝ)) *
        sumGrid (kernelGrid I) / ((nOf I : ℝ) * normFactor0 I) := by
  obtain ⟨rfl, hchk⟩ := plot_fast_kde_ok_elim I g h
  obtain ⟨hidx, hn2, -, -⟩ := kdeCheckAux_none_elim I _ hchk
  have h1 : sumGrid (kdeGrid I) =
      (normFactor I)⁻¹ * sumGrid (convSame (histGrid I) (kernelGrid I)) := by
    unfold kdeGrid
    rw [sumGrid_smul, sumGrid_transpose]
  have hnf : normFactor I =
      normFactor0 I * (nOf I : ℝ) * (dxOf I : ℝ) * (dyOf I : ℝ) := by
    unfold normFactor
    rw [hnorm]
    simp
  have hSle : sumGrid (convSame (histGrid I) (kernelGrid I)) ≤
      sumGrid (kernelGrid I) * sumGrid (histGrid I) :=
    sumGrid_conv_le _ _ (histGrid_entry_nonneg I hw) (kernelGrid_entry_nonneg I)
  rw [sumGrid_hist I hidx] at hSle
  have dxp : (0 : ℝ) < (dxOf I : ℝ) := by exact_mod_cast hdx
  have dyp : (0 : ℝ) < (dyOf I : ℝ) := by exact_mod_cast hdy
  have npos : (0 : ℝ) < (nOf I : ℝ) := by
    have h2 : (0 : ℕ) < nOf I := by omega
    exact_mod_cast h2
  rw [h1, hnf]
  rcases eq_or_lt_of_le (normFactor0_nonneg I) with h0 | h0
  · rw [← h0]
    simp
  · have hle2 : sumGrid (convSame (histGrid I) (kernelGrid I)) *
        ((dxOf I : ℝ) * (dyOf I : ℝ)) * ((nOf I : ℝ) * normFactor0 I)
        ≤ ((∑ i ∈ Finset.range (nOf I), (((weightsOf I).getD i 0 : ℚ) : ℝ)) *
            sumGrid (kernelGrid I)) *
          (normFactor0 I * (nOf I : ℝ) * (dxOf I : ℝ) * (dyOf I : ℝ)) := by
      calc sumGrid (convSame (histGrid I) (kernelGrid I)) *
            ((dxOf I : ℝ) * (dyOf I : ℝ)) * ((nOf I : ℝ) * normFactor0 I)
          = sumGrid (convSame (histGrid I) (kernelGrid I)) *
            (((dxOf I : ℝ) * (dyOf I : ℝ)) * ((nOf I : ℝ) * normFactor0 I)) := by
            ring
        _ ≤ (sumGrid (kernelGrid I) *
              (∑ i ∈ Finset.range (nOf I), (((weightsOf I).getD i 0 : ℚ) : ℝ))) *
            (((dxOf I : ℝ) * (dyOf I : ℝ)) * ((nOf I : ℝ) * normFactor0 I)) :=
            mul_le_mul_of_nonneg_right hSle
              (le_of_lt (mul_pos (mul_pos dxp dyp) (mul_pos npos h0)))
        _ = ((∑ i ∈ Finset.range (nOf I), (((weightsOf I).getD i 0 : ℚ) : ℝ)) *
              sumGrid (kernelGrid I)) *
            (normFactor0 I * (nOf I : ℝ) * (dxOf I : ℝ) * (dyOf I : ℝ)) := by
            ring
    have hc : (0 : ℝ) < normFactor0 I * (nOf I : ℝ) * (dxOf I : ℝ) * (dyOf I : ℝ) :=
      mul_pos (mul_pos (mul_pos h0 npos) dxp) dyp
    have hnn : (0 : ℝ) < (nOf I : ℝ) * normFactor0 I := mul_pos npos h0
    have hshape : (normFactor0 I * (nOf I : ℝ) * (dxOf I : ℝ) * (dyOf I : ℝ))⁻¹ *
        sumGrid (convSame (histGrid I) (kernelGrid I)) * (dxOf I : ℝ) * (dyOf I : ℝ)
        = sumGrid (convSame (histGrid I) (kernelGrid I)) *
            ((dxOf I : ℝ) * (dyOf I : ℝ)) /
          (normFactor0 I * (nOf I : ℝ) * (dxOf I : ℝ) * (dyOf I : ℝ)) := by
      rw [div_eq_mul_inv]
      ring
    rw [hshape, div_le_div_iff hc hnn]
    exact hle2

/-- Witness for the amended C2 at the example run. -/
theorem norm_integral_upper_bound_witness :
    sumGrid (kdeGrid Iex) * (dxOf Iex : ℝ) * (dyOf Iex : ℝ) ≤
      (∑ i ∈ Finset.range (nOf Iex), (((weightsOf Iex).getD i 0 : ℚ) : ℝ)) *
        sumGrid (kernelGrid Iex) / ((nOf Iex : ℝ) * normFactor0 Iex) :=
  norm_integral_upper_bound Iex (kdeGrid Iex) plot_fast_kde_Iex rfl rfl
    (by
      intro w hmem
      have hrep : weightsOf Iex = List.replicate 3 1 := rfl
      rw [hrep] at hmem
      rw [List.eq_of_mem_replicate hmem]
      norm_num)
    (by rw [dx_Iex]; norm_num) (by rw [dy_Iex]; norm_num)

/-- Three spread-out points with a deliberately tiny explicit 1-bin
kernel, a valid input on which the normalized integral is far below 1. -/
def Ic2 : KdeInput :=
  { x := [0, 50, 100], y := [0, 100, 50], kern_nx := some 1, kern_ny := some 1,
    gridsize := (101, 101) }

/-- The x data of the tiny-kernel input. -/
theorem Ic2_x : Ic2.x = [0, 50, 100] := rfl

/-- The y data of the tiny-kernel input. -/
theorem Ic2_y : Ic2.y = [0, 100, 50] := rfl

/-- The grid size of the tiny-kernel input. -/
theorem Ic2_gridsize : Ic2.gridsize = (101, 101) := rfl

/-- Sample count of the tiny-kernel input. -/
theorem nOf_Ic2 : nOf Ic2 = 3 := rfl

/-- Left edge of the tiny-kernel input. -/
theorem xmin_Ic2 : xminOf Ic2 = 0 := by
  norm_num [xminOf, extentsOf, listMin, Ic2]

/-- Bottom edge of the tiny-kernel input. -/
theorem ymin_Ic2 : yminOf Ic2 = 0 := by
  norm_num [yminOf, extentsOf, listMin, Ic2]

/-- Bin width along x of the tiny-kernel input. -/
theorem dx_Ic2 : dxOf Ic2 = 1 := by
  norm_num [dxOf, xmaxOf, xminOf, extentsOf, listMin, listMax, Ic2]

/-- Bin width along y of the tiny-kernel input. -/
theorem dy_Ic2 : dyOf Ic2 = 1 := by
  norm_num [dyOf, ymaxOf, yminOf, extentsOf, listMin, listMax, Ic2]

/-- Pixel x-indices of the tiny-kernel input. -/
theorem pixelX_Ic2 :
    pixelX Ic2 0 = some 0 ∧ pixelX Ic2 1 = some 50 ∧ pixelX Ic2 2 = some 100 := by
  norm_num [pixelX, dx_Ic2, xmin_Ic2, Ic2_x]

/-- Pixel y-indices of the tiny-kernel input. -/
theorem pixelY_Ic2 :
    pixelY Ic2 0 = some 0 ∧ pixelY Ic2 1 = some 100 ∧ pixelY Ic2 2 = some 50 := by
  norm_num [pixelY, dy_Ic2, ymin_Ic2, Ic2_y]

/-- All bin indices of the tiny-kernel input are accepted. -/
theorem indicesOK_Ic2 : indicesOK Ic2 = true := by
  rw [indicesOK, List.all_eq_true]
  intro i hi
  rw [List.mem_range, nOf_Ic2] at hi
  interval_cases i <;>
    simp [pixelX_Ic2.1, pixelX_Ic2.2.1, pixelX_Ic2.2.2,
      pixelY_Ic2.1, pixelY_Ic2.2.1, pixelY_Ic2.2.2, Ic2_gridsize]

/-- Pixel x-variance of the tiny-kernel input. -/
theorem covXX_Ic2 : covXX Ic2 = 2500 := by
  norm_num [covXX, meanX, nOf_Ic2, pxQ, pixelX_Ic2.1, pixelX_Ic2.2.1,
    pixelX_Ic2.2.2, Finset.sum_range_succ]

/-- Pixel y-variance of the tiny-kernel input. -/
theorem covYY_Ic2 : covYY Ic2 = 2500 := by
  norm_num [covYY, meanY, nOf_Ic2, pyQ, pixelY_Ic2.1, pixelY_Ic2.2.1,
    pixelY_Ic2.2.2, Finset.sum_range_succ]

/-- Pixel covariance of the tiny-kernel input. -/
theorem covXY_Ic2 : covXY Ic2 = 1250 := by
  norm_num [covXY, meanX, meanY, nOf_Ic2, pxQ, pyQ, pixelX_Ic2.1,
    pixelX_Ic2.2.1, pixelX_Ic2.2.2, pixelY_Ic2.1, pixelY_Ic2.2.1,
    pixelY_Ic2.2.2, Finset.sum_range_succ]

/-- Effective covariance of the tiny-kernel input. -/
theorem covXYeff_Ic2 : covXYeff Ic2 = 1250 := by
  simp [covXYeff, show Ic2.nocorrelation = false from rfl, covXY_Ic2]

/-- Covariance determinant of the tiny-kernel input. -/
theorem detCov_Ic2 : detCov Ic2 = 4687500 := by
  rw [detCov, covXX_Ic2, covYY_Ic2, covXYeff_Ic2]
  norm_num

/-- The check pipeline accepts the tiny-kernel input. -/
theorem kdeCheck_Ic2 : kdeCheck Ic2 = none := by
  rw [kdeCheck_of_explicit Ic2 1 1 rfl rfl]
  rw [kdeCheckAux, dx_Ic2, dy_Ic2]
  norm_num [show weightsBad Ic2 = false from rfl, nOf_Ic2, indicesOK_Ic2,
    detCov_Ic2, npRoundQ_one, Ic2_x, Ic2_y]
  norm_num [Ic2]

/-- The explicit kernel extents give a single-cell kernel. -/
theorem kernSize_Ic2 : kernSize Ic2 = (1, 1) := by
  rw [kernSize_of_explicit Ic2 1 1 rfl rfl, dx_Ic2, dy_Ic2]
  norm_num [npRoundQ_one]

/-- The squared Scott factor of three samples is at least one half. -/
theorem scottSq_Ic2_ge : (1 / 2 : ℝ) ≤ scottsFactor Ic2 ^ 2 := by
  have hsf : scottsFactor Ic2 = (3 : ℝ) ^ (-(1 / 6 : ℝ)) := by
    rw [scottsFactor, show nOf Ic2 = 3 from rfl]
    norm_num
  have hsq : scottsFactor Ic2 ^ 2 = (3 : ℝ) ^ (-(1 / 3 : ℝ)) := by
    rw [hsf, ← Real.rpow_natCast ((3 : ℝ) ^ (-(1 / 6 : ℝ))) 2,
      ← Real.rpow_mul (by norm_num : (0 : ℝ) ≤ 3)]
    norm_num
  rw [hsq]
  have hc : (3 : ℝ) ^ ((1 / 3 : ℝ)) ≤ 2 := by
    have hcube : ((3 : ℝ) ^ ((1 / 3 : ℝ))) ^ (3 : ℕ) = 3 := by
      rw [← Real.rpow_natCast ((3 : ℝ) ^ ((1 / 3 : ℝ))) 3,
        ← Real.rpow_mul (by norm_num : (0 : ℝ) ≤ 3)]
      norm_num
    by_contra hcon
    push_neg at hcon
    have h8 := pow_lt_pow_left hcon (by norm_num : (0 : ℝ) ≤ 2)
      (by norm_num : (3 : ℕ) ≠ 0)
    rw [hcube] at h8
    norm_num at h8
  have hpos : (0 : ℝ) < (3 : ℝ) ^ ((1 / 3 : ℝ)) :=
    Real.rpow_pos_of_pos (by norm_num) _
  rw [Real.rpow_neg (by norm_num : (0 : ℝ) ≤ 3)]
  calc (1 / 2 : ℝ) = 2⁻¹ := by norm_num
    _ ≤ ((3 : ℝ) ^ ((1 / 3 : ℝ)))⁻¹ := inv_le_inv_of_le hpos hc

/-- The analytic normalization constant of the tiny-kernel input is at
least 6000. -/
theorem normFactor0_Ic2_ge : (6000 : ℝ) ≤ normFactor0 Ic2 := by
  unfold normFactor0
  rw [detCov_Ic2]
  have hs2 := scottSq_Ic2_ge
  have h3 : (3 : ℝ) ≤ 2 * Real.pi * scottsFactor Ic2 ^ 2 := by
    nlinarith [Real.pi_gt_three]
  have h9 : (9 : ℝ) ≤ (2 * Real.pi * scottsFactor Ic2 ^ 2) ^ 2 := by
    nlinarith [h3]
  rw [show ((4687500 : ℚ) : ℝ) = 4687500 by norm_num]
  rw [Real.le_sqrt (by norm_num : (0 : ℝ) ≤ 6000)]
  · nlinarith [h9]
  · positivity

/-- The kernel quadratic form as a single quotient. -/
theorem qForm_eq (I : KdeInput) (a b : ℝ) :
    qForm I a b = ((covYY I : ℝ) * a ^ 2 - 2 * (covXYeff I : ℝ) * a * b +
      (covXX I : ℝ) * b ^ 2) / (scottsFactor I ^ 2 * (detCov I : ℝ)) := by
  unfold qForm invCovXX invCovXY invCovYY
  ring

/-- The single-cell kernel of the tiny-kernel input has mass at most 1. -/
theorem kernelSum_Ic2_le : sumGrid (kernelGrid Ic2) ≤ 1 := by
  have hrows : (kernelGrid Ic2).rows = 1 := by simp [kernelGrid, kernSize_Ic2]
  have hcols : (kernelGrid Ic2).cols = 1 := by simp [kernelGrid, kernSize_Ic2]
  unfold sumGrid
  rw [hrows, hcols, Finset.sum_range_one, Finset.sum_range_one]
  have h1 : ((kernSize Ic2).1 : ℝ) = 1 := by rw [kernSize_Ic2]; norm_num
  have h2 : ((kernSize Ic2).2 : ℝ) = 1 := by rw [kernSize_Ic2]; norm_num
  have hentry : (kernelGrid Ic2).entry 0 0 =
      Real.exp (-(qForm Ic2 (-(1 / 2)) (-(1 / 2))) / 2) := by
    show Real.exp (-(qForm Ic2 (((0 : ℕ) : ℝ) - ((kernSize Ic2).1 : ℝ) / 2)
      (((0 : ℕ) : ℝ) - ((kernSize Ic2).2 : ℝ) / 2)) / 2) = _
    rw [h1, h2]
    norm_num
  rw [hentry, Real.exp_le_one_iff]
  have hq : 0 ≤ qForm Ic2 (-(1 / 2)) (-(1 / 2)) := by
    rw [qForm_eq, covXX_Ic2, covYY_Ic2, covXYeff_Ic2, detCov_Ic2]
    apply div_nonneg
    · push_cast
      norm_num
    · apply mul_nonneg (sq_nonneg _)
      norm_num
  linarith

/-- C2 counterexample: a valid `norm=True` run whose grid integrates to
far less than 1 — the explicit one-bin kernel carries tiny mass compared
with the analytic Gaussian constant, so the claimed 1e-2 tolerance fails
badly. -/
theorem norm_integral_counterexample :
    plot_fast_kde Ic2 = .ok (kdeGrid Ic2) ∧ Ic2.norm = true ∧ Ic2.pdf = false ∧
    sumGrid (kdeGrid Ic2) * (dxOf Ic2 : ℝ) * (dyOf Ic2 : ℝ) < 1 / 2 := by
  refine ⟨(plot_fast_kde_ok_iff Ic2).mpr kdeCheck_Ic2, rfl, rfl, ?_⟩
  have hwnn : ∀ w ∈ weightsOf Ic2, 0 ≤ w := by
    intro w hmem
    have hrep : weightsOf Ic2 = List.replicate 3 1 := rfl
    rw [hrep] at hmem
    rw [List.eq_of_mem_replicate hmem]
    norm_num
  have h1 : sumGrid (kdeGrid Ic2) =
      (normFactor Ic2)⁻¹ * sumGrid (convSame (histGrid Ic2) (kernelGrid Ic2)) := by
    unfold kdeGrid
    rw [sumGrid_smul, sumGrid_transpose]
  have hS0 : 0 ≤ sumGrid (convSame (histGrid Ic2) (kernelGrid Ic2)) :=
    sumGrid_nonneg _ (convSame_entry_nonneg _ _ (histGrid_entry_nonneg Ic2 hwnn)
      (kernelGrid_entry_nonneg Ic2))
  have hhist : sumGrid (histGrid Ic2) = 3 := by
    rw [sumGrid_hist Ic2 indicesOK_Ic2]
    have hrep : weightsOf Ic2 = List.replicate 3 1 := rfl
    rw [show nOf Ic2 = 3 from rfl, hrep]
    norm_num [Finset.sum_range_succ, List.getD]
  have hSle : sumGrid (convSame (histGrid Ic2) (kernelGrid Ic2)) ≤ 3 := by
    have h := sumGrid_conv_le _ _ (histGrid_entry_nonneg Ic2 hwnn)
      (kernelGrid_entry_nonneg Ic2)
    rw [hhist] at h
    calc sumGrid (convSame (histGrid Ic2) (kernelGrid Ic2))
        ≤ sumGrid (kernelGrid Ic2) * 3 := h
      _ ≤ 1 * 3 := mul_le_mul_of_nonneg_right kernelSum_Ic2_le (by norm_num)
      _ = 3 := by norm_num
  have hnf18 : (18000 : ℝ) ≤ normFactor Ic2 := by
    have hnf : normFactor Ic2 = normFactor0 Ic2 * ((nOf Ic2 : ℕ) : ℝ) *
        (dxOf Ic2 : ℝ) * (dyOf Ic2 : ℝ) := by
      unfold normFactor
      rw [show Ic2.norm = true from rfl]
      simp
    rw [hnf, dx_Ic2, dy_Ic2, show nOf Ic2 = 3 from rfl]
    push_cast
    nlinarith [normFactor0_Ic2_ge]
  have hnfinv : (normFactor Ic2)⁻¹ ≤ (18000 : ℝ)⁻¹ :=
    inv_le_inv_of_le (by norm_num) hnf18
  rw [h1, dx_Ic2, dy_Ic2]
  push_cast
  have hmul : (normFactor Ic2)⁻¹ * sumGrid (convSame (histGrid Ic2) (kernelGrid Ic2))
      ≤ (18000 : ℝ)⁻¹ * 3 :=
    mul_le_mul hnfinv hSle hS0 (by norm_num)
  nlinarith [hmul]
